import Mathlib

/-!
# Verification of the daChain UTXO ledger core

A shallow embedding, in Lean 4, of the core of the daChain pedagogical
blockchain (modules `crypto.py`, `models.py`, `utils.py`, `utxo.py`,
`blockchain.py`, `node.py`).  Byte strings are `List Nat` (each entry a
byte value), Python `dict`s are insertion-ordered association lists,
and the external `hashlib.sha256` primitive is implemented bit-exactly
from FIPS 180-4 so that hashes of concrete data can be evaluated.
ECDSA signature verification (`wallet.py` delegates to the external
`ecdsa` library) is a parameter of the development: every theorem is
universally quantified over the verifier, hence holds in particular for
the real secp256k1 verifier.

Strings appearing in the ledger (hex hashes, asset ids, reason strings)
are ASCII; the JSON byte encoding below is exact on such strings.
-/

set_option maxRecDepth 40000

namespace DaChain

/-! ## Bytes and hex (Python `bytes.hex`, `bytes.fromhex`, `int(_, 16)`) -/

/-- Lower-case hex digit for a value `< 16`. -/
def hexDigit (n : Nat) : Char :=
  if n < 10 then Char.ofNat (48 + n) else Char.ofNat (87 + n)

/-- Two-digit lower-case hex rendering of one byte (`bytes.hex` per byte). -/
def byteHexChars (b : Nat) : List Char :=
  [hexDigit (b / 16), hexDigit (b % 16)]

/-- `bytes.hex()`: lower-case hex string of a byte list. -/
def bytesToHex (bs : List Nat) : String :=
  String.mk (bs.flatMap byteHexChars)

/-- Numeric value of one hex digit (junk `0` off the hex alphabet; the
Python original raises there, and every use below is guarded by
`IsHexStr`). -/
def hexVal (c : Char) : Nat :=
  if 48 ≤ c.toNat ∧ c.toNat ≤ 57 then c.toNat - 48
  else if 97 ≤ c.toNat ∧ c.toNat ≤ 102 then c.toNat - 87
  else if 65 ≤ c.toNat ∧ c.toNat ≤ 70 then c.toNat - 55
  else 0

/-- `bytes.fromhex` on a list of characters, pairing hex digits. -/
def hexPairs : List Char → List Nat
  | c1 :: c2 :: rest => (hexVal c1 * 16 + hexVal c2) :: hexPairs rest
  | _ => []

/-- `bytes.fromhex(s)`. -/
def hexToBytes (s : String) : List Nat := hexPairs s.toList

/-- A character is a lower-case hex digit. -/
def isLowerHexDigit (c : Char) : Prop :=
  (48 ≤ c.toNat ∧ c.toNat ≤ 57) ∨ (97 ≤ c.toNat ∧ c.toNat ≤ 102)

instance (c : Char) : Decidable (isLowerHexDigit c) := by
  unfold isLowerHexDigit; infer_instance

/-- A canonical (lower-case, even-length) hex string, the format produced
by `bytes.hex()`. -/
def IsHexStr (s : String) : Prop :=
  s.toList.length % 2 = 0 ∧ ∀ c ∈ s.toList, isLowerHexDigit c

instance (s : String) : Decidable (IsHexStr s) := by
  unfold IsHexStr; infer_instance

/-- Python `int(s, 16)`. -/
def hexToNat (s : String) : Nat :=
  s.toList.foldl (fun acc c => acc * 16 + hexVal c) 0

/-- UTF-8 bytes of an ASCII string (`str.encode("utf-8")`; all strings in
the ledger are ASCII). -/
def strBytes (s : String) : List Nat := s.toList.map Char.toNat

/-! ## SHA-256 (FIPS 180-4), the `hashlib.sha256` primitive -/

/-- Truncation to a 32-bit word. -/
def w32 (x : Nat) : Nat := x % 4294967296

/-- 32-bit right rotation. -/
def rotr (n x : Nat) : Nat := w32 ((x >>> n) ||| (x <<< (32 - n)))

def bsig0 (x : Nat) : Nat := rotr 2 x ^^^ rotr 13 x ^^^ rotr 22 x
def bsig1 (x : Nat) : Nat := rotr 6 x ^^^ rotr 11 x ^^^ rotr 25 x
def ssig0 (x : Nat) : Nat := rotr 7 x ^^^ rotr 18 x ^^^ (x >>> 3)
def ssig1 (x : Nat) : Nat := rotr 17 x ^^^ rotr 19 x ^^^ (x >>> 10)
def chF (x y z : Nat) : Nat := (x &&& y) ^^^ ((x ^^^ 4294967295) &&& z)
def majF (x y z : Nat) : Nat := (x &&& y) ^^^ (x &&& z) ^^^ (y &&& z)

/-- The 64 SHA-256 round constants of FIPS 180-4 (in decimal). -/
def shaK : List Nat :=
  [1116352408, 1899447441, 3049323471, 3921009573, 961987163,
   1508970993, 2453635748, 2870763221, 3624381080, 310598401,
   607225278, 1426881987, 1925078388, 2162078206, 2614888103,
   3248222580, 3835390401, 4022224774, 264347078, 604807628,
   770255983, 1249150122, 1555081692, 1996064986, 2554220882,
   2821834349, 2952996808, 3210313671, 3336571891, 3584528711,
   113926993, 338241895, 666307205, 773529912, 1294757372,
   1396182291, 1695183700, 1986661051, 2177026350, 2456956037,
   2730485921, 2820302411, 3259730800, 3345764771, 3516065817,
   3600352804, 4094571909, 275423344, 430227734, 506948616,
   659060556, 883997877, 958139571, 1322822218, 1537002063,
   1747873779, 1955562222, 2024104815, 2227730452, 2361852424,
   2428436474, 2756734187, 3204031479, 3329325298]

/-- The eight initial SHA-256 hash words (in decimal). -/
def shaH0 : List Nat :=
  [1779033703, 3144134277, 1013904242, 2773480762, 1359893119,
   2600822924, 528734635, 1541459225]

/-- Big-endian 8-byte rendering of the bit length. -/
def lenBytes64 (n : Nat) : List Nat :=
  [w32 (n >>> 56) % 256, (n >>> 48) % 256, (n >>> 40) % 256, (n >>> 32) % 256,
   (n >>> 24) % 256, (n >>> 16) % 256, (n >>> 8) % 256, n % 256]

/-- SHA-256 message padding. -/
def padMsg (m : List Nat) : List Nat :=
  m ++ 128 :: List.replicate ((119 - m.length % 64) % 64) 0 ++ lenBytes64 (8 * m.length)

/-- Big-endian 32-bit words from bytes. -/
def toWordsBE : List Nat → List Nat
  | b0 :: b1 :: b2 :: b3 :: rest =>
      (b0 * 16777216 + b1 * 65536 + b2 * 256 + b3) :: toWordsBE rest
  | _ => []

/-- Split into 64-byte chunks; structural recursion on a fuel that the
wrapper instantiates with the list length (each step drops 64 ≥ 1
elements, so the fuel never runs out). -/
def chunksAux : Nat → List Nat → List (List Nat)
  | _, [] => []
  | 0, _ :: _ => []
  | n + 1, l@(_ :: _) => l.take 64 :: chunksAux n (l.drop 64)

/-- Split into 64-byte chunks. -/
def chunks64 (l : List Nat) : List (List Nat) := chunksAux l.length l

/-- Message-schedule extension, working on the reversed word list: the
head is the most recent word. -/
def extendRev : Nat → List Nat → List Nat
  | 0, acc => acc
  | n + 1, acc =>
      extendRev n
        (w32 (ssig1 (acc.getD 1 0) + acc.getD 6 0 + ssig0 (acc.getD 14 0) + acc.getD 15 0) :: acc)

/-- The 64-entry message schedule of one chunk. -/
def schedule (chunk : List Nat) : List Nat :=
  (extendRev 48 (toWordsBE chunk).reverse).reverse

/-- One compression round; state is the (a,…,h) tuple. -/
def shaRound (st : Nat × Nat × Nat × Nat × Nat × Nat × Nat × Nat) (kw : Nat × Nat) :
    Nat × Nat × Nat × Nat × Nat × Nat × Nat × Nat :=
  match st with
  | (a, b, c, d, e, f, g, h) =>
    let t1 := w32 (h + bsig1 e + chF e f g + kw.1 + kw.2)
    let t2 := w32 (bsig0 a + majF a b c)
    (w32 (t1 + t2), a, b, c, w32 (d + t1), e, f, g)

/-- Compress one 64-byte chunk into the running hash state. -/
def compress (H : List Nat) (chunk : List Nat) : List Nat :=
  match H with
  | [h0, h1, h2, h3, h4, h5, h6, h7] =>
    match (shaK.zip (schedule chunk)).foldl shaRound (h0, h1, h2, h3, h4, h5, h6, h7) with
    | (a, b, c, d, e, f, g, h) =>
      [w32 (h0 + a), w32 (h1 + b), w32 (h2 + c), w32 (h3 + d),
       w32 (h4 + e), w32 (h5 + f), w32 (h6 + g), w32 (h7 + h)]
  | _ => []

/-- Big-endian bytes of one 32-bit word. -/
def wordBytes (x : Nat) : List Nat :=
  [(x >>> 24) % 256, (x >>> 16) % 256, (x >>> 8) % 256, x % 256]

/-- `hashlib.sha256(data).digest()` (module `crypto.py`, `sha256_bytes`). -/
def sha256_bytes (m : List Nat) : List Nat :=
  (((chunks64 (padMsg m)).foldl compress shaH0).map wordBytes).flatten

/-- `hashlib.sha256(data).hexdigest()` (module `crypto.py`, `sha256_hex`). -/
def sha256_hex (m : List Nat) : String :=
  bytesToHex (sha256_bytes m)

example : sha256_hex [] = "e3b0c44298fc1c149afbf4c8996fb92427ae41e4649b934ca495991b7852b855" := by decide

example : sha256_hex (strBytes "abc") =
    "ba7816bf8f01cfea414140de5dae2223b00361a396177a9cb410ff61f20015ad" := by decide

/-! ## Insertion-ordered dictionaries (Python `dict`)

A Python `dict` keeps insertion order; overwriting an existing key keeps
its position.  Association lists with the operations below model this
exactly. -/

def dictLookup {α β : Type} [DecidableEq α] (k : α) : List (α × β) → Option β
  | [] => none
  | (k', v) :: rest => if k' = k then some v else dictLookup k rest

def dictInsert {α β : Type} [DecidableEq α] (k : α) (v : β) : List (α × β) → List (α × β)
  | [] => [(k, v)]
  | (k', v') :: rest => if k' = k then (k, v) :: rest else (k', v') :: dictInsert k v rest

/-- `d.pop(k, None)`: remove the key if present. -/
def dictRemove {α β : Type} [DecidableEq α] (k : α) : List (α × β) → List (α × β)
  | [] => []
  | (k', v') :: rest => if k' = k then rest else (k', v') :: dictRemove k rest

def dictKeys {α β : Type} (d : List (α × β)) : List α := d.map Prod.fst

/-! ## Data model (`models.py`) -/

structure TxOutput where
  asset_id : String
  pubkey_hash : String
  portion : Int
deriving DecidableEq

structure TxInput where
  txid_ref : String
  index : Nat
  pubkey : String
  signature : String
deriving DecidableEq

/-- A transaction; the `txid` field of the Python dataclass is derived
from the other fields in `__post_init__`, so it is embedded as the
function `Transaction.txid` below. -/
structure Transaction where
  inputs : List TxInput
  outputs : List TxOutput
deriving DecidableEq

structure BlockHeader where
  height : Nat
  prev_hash : String
  merkle_root : String
  nonce : Nat
deriving DecidableEq

structure Block where
  header : BlockHeader
  txs : List Transaction
deriving DecidableEq

/-! ### Canonical JSON serialisation

`json.dumps(data, sort_keys=True, separators=(",", ":"))` on the fixed
dictionary shapes of `models.py`, with keys inlined in sorted order.
The strings fed to it in the ledger (hex digests, `asset-<i>` ids)
contain no characters that `json.dumps` escapes. -/

/-- `TxInput.to_dict` with the signature field, dumped as JSON
(sorted keys: index, pubkey, signature, txid_ref). -/
def TxInput.jsonSig (i : TxInput) : String :=
  "\x7b\"index\":" ++ toString i.index ++ ",\"pubkey\":\"" ++ i.pubkey ++
    "\",\"signature\":\"" ++ i.signature ++ "\",\"txid_ref\":\"" ++ i.txid_ref ++ "\"\x7d"

/-- `TxInput.to_dict` without the signature field, dumped as JSON. -/
def TxInput.jsonNoSig (i : TxInput) : String :=
  "\x7b\"index\":" ++ toString i.index ++ ",\"pubkey\":\"" ++ i.pubkey ++
    "\",\"txid_ref\":\"" ++ i.txid_ref ++ "\"\x7d"

/-- `TxOutput.to_dict` dumped as JSON (sorted keys: asset_id, portion,
pubkey_hash). -/
def TxOutput.json (o : TxOutput) : String :=
  "\x7b\"asset_id\":\"" ++ o.asset_id ++ "\",\"portion\":" ++ toString o.portion ++
    ",\"pubkey_hash\":\"" ++ o.pubkey_hash ++ "\"\x7d"

/-- `Transaction._serialize(include_signatures)` (UTF-8 bytes). -/
def Transaction.serialize (tx : Transaction) (includeSignatures : Bool) : List Nat :=
  strBytes <|
    "\x7b\"inputs\":[" ++
      String.intercalate ","
        (tx.inputs.map (fun i => if includeSignatures then i.jsonSig else i.jsonNoSig)) ++
    "],\"outputs\":[" ++ String.intercalate "," (tx.outputs.map TxOutput.json) ++ "]\x7d"

/-- `Transaction.compute_txid` (identity form, signatures included). -/
def Transaction.txid (tx : Transaction) : String := sha256_hex (tx.serialize true)

/-- `Transaction.message_hash` (signing form, signatures omitted). -/
def Transaction.message_hash (tx : Transaction) : String := sha256_hex (tx.serialize false)

/-- `BlockHeader.to_dict` dumped as JSON (sorted keys: height,
merkle_root, nonce, prev_hash). -/
def BlockHeader.json (h : BlockHeader) : String :=
  "\x7b\"height\":" ++ toString h.height ++ ",\"merkle_root\":\"" ++ h.merkle_root ++
    "\",\"nonce\":" ++ toString h.nonce ++ ",\"prev_hash\":\"" ++ h.prev_hash ++ "\"\x7d"

/-- `BlockHeader.hash`. -/
def BlockHeader.hash (h : BlockHeader) : String := sha256_hex (strBytes h.json)

/-! ## Merkle root (`utils.py`, `merkle_root`) -/

/-- One level of the Merkle tree: pairwise concatenate-and-hash,
duplicating the last node of an odd level. -/
def merkleStep : List (List Nat) → List (List Nat)
  | [] => []
  | [x] => [sha256_bytes (x ++ x)]
  | x :: y :: rest => sha256_bytes (x ++ y) :: merkleStep rest

/-- The `while len(level) > 1` loop, with fuel; each pass at least
halves the level, so fuel equal to the initial length suffices. -/
def merkleLoop : Nat → List (List Nat) → List (List Nat)
  | 0, lv => lv
  | n + 1, lv => if lv.length ≤ 1 then lv else merkleLoop n (merkleStep lv)

/-- `merkle_root(txids)`. -/
def merkle_root (txids : List String) : String :=
  if txids.isEmpty then sha256_hex []
  else bytesToHex ((merkleLoop txids.length (txids.map hexToBytes)).headD [])

/-! ## Blockchain state (`blockchain.py`)

The MongoDB mirror writes (`block_db`, `utxo_db`) are the out-of-scope
persistence adapter; the in-memory chain map, tip pointer and UTXO set
they duplicate are what the specification's claims quantify over, and
they are embedded here. -/

def TARGET_HEX : String :=
  "00000fffffffffffffffffffffffffffffffffffffffffffffffffffffffffff"

def MAX_TX_PER_BLOCK : Nat := 8

def zeros64 : String := String.mk (List.replicate 64 '0')

/-- The UTXO set (`utxo.py`): a dict from `(txid, index)` to output. -/
abbrev UTXOSet : Type := List ((String × Nat) × TxOutput)

def utxoGet (u : UTXOSet) (txid : String) (index : Nat) : Option TxOutput :=
  dictLookup (txid, index) u

def utxoAdd (u : UTXOSet) (txid : String) (index : Nat) (o : TxOutput) : UTXOSet :=
  dictInsert (txid, index) o u

def utxoRemove (u : UTXOSet) (txid : String) (index : Nat) : UTXOSet :=
  dictRemove (txid, index) u

structure Blockchain where
  blocks_by_hash : List (String × Block)
  height_tip_hash : String
  utxo : UTXOSet
deriving DecidableEq

/-- The `tip` property. -/
def Blockchain.tip (c : Blockchain) : Option Block :=
  dictLookup c.height_tip_hash c.blocks_by_hash

/-- The freshly constructed empty ledger. -/
def emptyChain : Blockchain := ⟨[], "", []⟩

/-- `for idx, out in enumerate(tx.outputs): utxo.add_output(txid, idx, out)`. -/
def addOutputsFrom (txid : String) : Nat → List TxOutput → UTXOSet → UTXOSet
  | _, [], u => u
  | idx, o :: rest, u => addOutputsFrom txid (idx + 1) rest (utxoAdd u txid idx o)

/-- `Blockchain.add_genesis_block` — note: no emptiness check of any
kind in the source. -/
def add_genesis_block (c : Blockchain) (b : Block) : Blockchain :=
  let h := b.header.hash
  { blocks_by_hash := dictInsert h b c.blocks_by_hash
    height_tip_hash := h
    utxo := b.txs.foldl (fun u tx => addOutputsFrom tx.txid 0 tx.outputs u) c.utxo }

/-! ### Transaction validation

`wallet.py`'s `Wallet.verify` delegates to the external `ecdsa`
library; everything below is parameterised over that verifier
(`verify pubkey_hex msg_hash_hex signature_hex`). -/

/-- The input loop of `validate_transaction`: threads the optional
asset id and the running input total, stopping at the first failure
with the source's reason string. -/
def scanInputs (u : UTXOSet) : List TxInput → Option String → Int →
    Except String (Option String × Int)
  | [], acc, tot => .ok (acc, tot)
  | inp :: rest, acc, tot =>
    match utxoGet u inp.txid_ref inp.index with
    | none => .error ("missing UTXO for (" ++ inp.txid_ref ++ ", " ++ toString inp.index ++ ")")
    | some o =>
      match acc with
      | none =>
        if sha256_hex (hexToBytes inp.pubkey) ≠ o.pubkey_hash then .error "pubkey hash mismatch"
        else scanInputs u rest (some o.asset_id) (tot + o.portion)
      | some a =>
        if o.asset_id ≠ a then .error "multiple asset_ids in inputs"
        else if sha256_hex (hexToBytes inp.pubkey) ≠ o.pubkey_hash then
          .error "pubkey hash mismatch"
        else scanInputs u rest (some a) (tot + o.portion)

/-- The output loop: every output must carry the input asset id; sums
the output portions. -/
def scanOutputs (a : Option String) : List TxOutput → Int → Except String Int
  | [], tot => .ok tot
  | o :: rest, tot =>
    if some o.asset_id ≠ a then .error "output asset_id mismatch"
    else scanOutputs a rest (tot + o.portion)

/-- The signature loop: each input's signature must verify over the
transaction's signing-form hash. -/
def checkSigs (verify : String → String → String → Bool) (msg : String) : List TxInput → Bool
  | [] => true
  | inp :: rest => verify inp.pubkey msg inp.signature && checkSigs verify msg rest

/-- `Blockchain.validate_transaction`. -/
def validate_transaction (verify : String → String → String → Bool) (c : Blockchain)
    (tx : Transaction) : Bool × String :=
  if tx.inputs.isEmpty then (true, "coinbase/genesis tx")
  else
    match scanInputs c.utxo tx.inputs none 0 with
    | .error e => (false, e)
    | .ok (a, totalIn) =>
      match scanOutputs a tx.outputs 0 with
      | .error e => (false, e)
      | .ok totalOut =>
        if totalIn ≠ totalOut then
          (false, "portion mismatch: in=" ++ toString totalIn ++ ", out=" ++ toString totalOut)
        else if checkSigs verify tx.message_hash tx.inputs then (true, "ok")
        else (false, "signature verification failed")

/-- `Blockchain.apply_transaction`: spend the inputs, add the outputs. -/
def apply_transaction (c : Blockchain) (tx : Transaction) : Blockchain :=
  let spent := tx.inputs.foldl (fun u inp => utxoRemove u inp.txid_ref inp.index) c.utxo
  { c with utxo := addOutputsFrom tx.txid 0 tx.outputs spent }

/-! ### Mining -/

/-- The greedy selection loop of `mine_block`: keep every transaction
that currently validates, stopping once `MAX_TX_PER_BLOCK` are
collected. -/
def selectValid (verify : String → String → String → Bool) (c : Blockchain) :
    List Transaction → List Transaction → List Transaction
  | [], sel => sel
  | tx :: rest, sel =>
    let sel' := if (validate_transaction verify c tx).1 then sel ++ [tx] else sel
    if MAX_TX_PER_BLOCK ≤ sel'.length then sel' else selectValid verify c rest sel'

/-- The `while True` nonce search, bounded by fuel (the source loops
until it finds a hash below the target; `none` means the search is
still running after `fuel` attempts, a state in which the source has
performed no mutation yet). -/
def powSearch (height : Nat) (prev root : String) : Nat → Nat → Option (BlockHeader × String)
  | 0, _ => none
  | fuel + 1, nonce =>
    let header : BlockHeader := ⟨height, prev, root, nonce⟩
    let h := header.hash
    if hexToNat h < hexToNat TARGET_HEX then some (header, h)
    else powSearch height prev root fuel (nonce + 1)

/-- Outcome of `mine_block`: the raised `RuntimeError`, a mined block
with the updated chain, or an unfinished nonce search. -/
inductive MineResult where
  | err (msg : String)
  | mined (c : Blockchain) (b : Block)
  | fuelOut
deriving DecidableEq

/-- `Blockchain.mine_block`. -/
def mine_block (verify : String → String → String → Bool) (c : Blockchain)
    (pending : List Transaction) (fuel : Nat) : MineResult :=
  let selected := selectValid verify c pending []
  if selected.isEmpty then .err "no valid transactions to mine"
  else
    let root := merkle_root (selected.map Transaction.txid)
    let hp : Nat × String :=
      match c.tip with
      | none => (0, zeros64)
      | some t => (t.header.height + 1, t.header.hash)
    match powSearch hp.1 hp.2 root fuel 0 with
    | none => .fuelOut
    | some (header, h) =>
      let block : Block := ⟨header, selected⟩
      let c1 : Blockchain :=
        { c with blocks_by_hash := dictInsert h block c.blocks_by_hash, height_tip_hash := h }
      .mined (selected.foldl apply_transaction c1) block

/-! ### Asset trace and chain walk -/

/-- `Blockchain.trace_asset`: blocks sorted by height descending
(Python's stable `sort` with `reverse=True`); within a block, one entry
per transaction with a matching output (the `break` after the first
hit). -/
def trace_asset (c : Blockchain) (asset_id : String) : List (Nat × String × Transaction) :=
  let blocks := c.blocks_by_hash.mergeSort (fun a b => b.2.header.height ≤ a.2.header.height)
  blocks.flatMap (fun bb =>
    bb.2.txs.filterMap (fun tx =>
      if tx.outputs.any (fun o => o.asset_id == asset_id) then
        some (bb.2.header.height, bb.1, tx)
      else none))

/-- A key with a successful lookup is among the dictionary's keys. -/
theorem mem_dictKeys_of_lookup {α β : Type} [DecidableEq α] {k : α} {v : β} :
    ∀ {d : List (α × β)}, dictLookup k d = some v → k ∈ dictKeys d := by
  intro d h
  induction d with
  | nil => cases h
  | cons p rest ih =>
    simp only [dictLookup] at h
    split at h
    · rename_i heq
      simp [dictKeys, heq]
    · simp only [dictKeys, List.map_cons, List.mem_cons]
      exact Or.inr (ih h)

/-- Marking one more reachable key as visited strictly shrinks the set
of unvisited keys: the termination measure of the chain walk. -/
theorem filter_unvisited_lt {α : Type} [DecidableEq α] (cur : α) (visited : List α)
    (l : List α) (hc : cur ∈ l) (hv : cur ∉ visited) :
    (l.filter (fun k => decide (¬ k ∈ cur :: visited))).length <
      (l.filter (fun k => decide (¬ k ∈ visited))).length := by
  induction l with
  | nil => cases hc
  | cons a l ih =>
    by_cases hac : a = cur
    · subst hac
      have hle :
          (l.filter (fun k => decide (¬ k ∈ a :: visited))).length ≤
            (l.filter (fun k => decide (¬ k ∈ visited))).length := by
        rw [← List.countP_eq_length_filter, ← List.countP_eq_length_filter]
        refine List.countP_mono_left fun x _ hx => ?_
        simp only [decide_eq_true_eq, List.mem_cons, not_or] at hx ⊢
        exact hx.2
      have e1 : List.filter (fun k => decide (¬ k ∈ a :: visited)) (a :: l)
          = List.filter (fun k => decide (¬ k ∈ a :: visited)) l := by
        simp [List.filter_cons]
      have e2 : List.filter (fun k => decide (¬ k ∈ visited)) (a :: l)
          = a :: List.filter (fun k => decide (¬ k ∈ visited)) l := by
        simp [List.filter_cons, hv]
      rw [e1, e2, List.length_cons]
      omega
    · have hcl : cur ∈ l := by
        rcases List.mem_cons.mp hc with h | h
        · exact absurd h.symm hac
        · exact h
      have e3 : (decide (¬ a ∈ cur :: visited)) = (decide (¬ a ∈ visited)) := by
        simp [List.mem_cons, hac]
      rw [List.filter_cons, List.filter_cons, e3]
      cases hdec : decide (¬ a ∈ visited) with
      | false => simpa using ih hcl
      | true => simpa using Nat.succ_lt_succ (ih hcl)

/-- The `while` loop of `build_chain_from_tip`; terminates because each
recursive step visits a key of the block map not seen before. -/
def chainWalk (blocks : List (String × Block)) (cur : String) (visited : List String)
    (acc : List (String × Block)) : List (String × Block) :=
  if hstop : cur = "" ∨ cur ∈ visited then acc
  else
    match hlook : dictLookup cur blocks with
    | none => acc
    | some blk =>
      if blk.header.prev_hash = zeros64 then acc ++ [(cur, blk)]
      else chainWalk blocks blk.header.prev_hash (cur :: visited) (acc ++ [(cur, blk)])
  termination_by ((dictKeys blocks).filter (fun k => ¬ k ∈ visited)).length
  decreasing_by
    push_neg at hstop
    exact filter_unvisited_lt cur visited (dictKeys blocks)
      (mem_dictKeys_of_lookup hlook) hstop.2

/-- `Blockchain.build_chain_from_tip`. -/
def build_chain_from_tip (c : Blockchain) : List (String × Block) :=
  chainWalk c.blocks_by_hash c.height_tip_hash [] []

/-! ## Genesis construction (`utils.py`, `create_genesis`)

A `Wallet` enters `create_genesis` only through its `pubkey_hash`
property, so wallets are embedded as their pubkey-hash strings.  The
source indexes `initial_wallets[i]` for `i < num_assets`; theorems
about it therefore assume the list is long enough (`getD` supplies a
default past the end, where the source would raise `IndexError`). -/

def create_genesis (num_assets : Nat) (walletHashes : List String) : Block :=
  let txs := (List.range num_assets).map fun i =>
    Transaction.mk [] [⟨"asset-" ++ toString i, walletHashes.getD i "", 100⟩]
  let root := merkle_root (txs.map Transaction.txid)
  ⟨⟨0, zeros64, root, 0⟩, txs⟩

/-! ## Full node (`node.py`)

A node holds a reference to the (shared) ledger, its own mempool and a
peer list.  Peers are embedded by id; an operation that the source ends
by invoking `receive_transaction`/`receive_block` on every peer returns
the list of peer ids the message is sent to. -/

structure FullNode where
  node_id : String
  blockchain : Blockchain
  mempool : List (String × Transaction)
  peers : List String
  last_mined_block : Option Block
deriving DecidableEq

/-- `FullNode.receive_transaction`: dedup on txid, validate, insert,
forward to every peer.  The second component is the list of peers the
transaction is forwarded to. -/
def receive_transaction (verify : String → String → String → Bool) (n : FullNode)
    (tx : Transaction) : FullNode × List String :=
  if (dictLookup tx.txid n.mempool).isSome then (n, [])
  else if (validate_transaction verify n.blockchain tx).1 then
    ({ n with mempool := dictInsert tx.txid tx n.mempool }, n.peers)
  else (n, [])

/-- `FullNode.mine`: snapshot the mempool, call `mine_block`, drop the
mined txids, broadcast.  Second component: the mined block (`None` when
nothing was mined, which is also what the caught `RuntimeError`
produces); third: the peers the block is broadcast to. -/
def FullNode.mine (verify : String → String → String → Bool) (n : FullNode) (fuel : Nat) :
    FullNode × Option Block × List String :=
  if n.mempool.isEmpty then (n, none, [])
  else
    match mine_block verify n.blockchain (n.mempool.map Prod.snd) fuel with
    | .err _ => (n, none, [])
    | .fuelOut => (n, none, [])
    | .mined c b =>
      let mp := b.txs.foldl (fun mp tx => dictRemove tx.txid mp) n.mempool
      ({ n with blockchain := c, mempool := mp, last_mined_block := some b }, some b, n.peers)

/-- `FullNode.receive_block`.  Note the tip guard `if tip_hash and
prev_hash != tip_hash`: the empty string is falsy, so an empty chain
skips the guard entirely. -/
def receive_block (verify : String → String → String → Bool) (n : FullNode)
    (b : Block) : FullNode :=
  let tip_hash := n.blockchain.height_tip_hash
  if tip_hash ≠ "" ∧ b.header.prev_hash ≠ tip_hash then n
  else
    let h := b.header.hash
    if hexToNat TARGET_HEX ≤ hexToNat h then n
    else if b.txs.all (fun tx => (validate_transaction verify n.blockchain tx).1) then
      let c1 : Blockchain :=
        { n.blockchain with
            blocks_by_hash := dictInsert h b n.blockchain.blocks_by_hash
            height_tip_hash := h }
      let cm := b.txs.foldl
        (fun cm tx => (apply_transaction cm.1 tx, dictRemove tx.txid cm.2))
        (c1, n.mempool)
      { n with blockchain := cm.1, mempool := cm.2 }
    else n

/-! ## Asset conservation bookkeeping -/

/-- Sum of the unspent portions of one asset over the UTXO set. -/
def assetSum (u : UTXOSet) (asset_id : String) : Int :=
  ((u.filter (fun e => e.2.asset_id == asset_id)).map (fun e => e.2.portion)).sum


/-! ## Dictionary lemmas -/

theorem dictLookup_insert_self {α β : Type} [DecidableEq α] (k : α) (v : β) :
    ∀ (d : List (α × β)), dictLookup k (dictInsert k v d) = some v := by
  intro d
  induction d with
  | nil => simp [dictInsert, dictLookup]
  | cons p rest ih =>
    by_cases hk : p.1 = k
    · simp [dictInsert, dictLookup, hk]
    · simp only [dictInsert]
      rw [if_neg (by simpa using hk)]
      simp only [dictLookup]
      rw [if_neg (by simpa using hk)]
      exact ih

theorem dictLookup_insert_ne {α β : Type} [DecidableEq α] {q k : α} (v : β)
    (h : q ≠ k) : ∀ (d : List (α × β)), dictLookup q (dictInsert k v d) = dictLookup q d := by
  intro d
  induction d with
  | nil =>
    simp only [dictInsert, dictLookup]
    rw [if_neg (fun hh => h hh.symm)]
  | cons p rest ih =>
    by_cases hk : p.1 = k
    · subst hk
      simp only [dictInsert, if_pos rfl, dictLookup]
      rw [if_neg (by simpa using fun hh => h hh.symm), if_neg (by simpa using fun hh => h hh.symm)]
    · simp only [dictInsert]
      rw [if_neg hk]
      simp only [dictLookup]
      by_cases hq : p.1 = q
      · rw [if_pos hq, if_pos hq]
      · rw [if_neg hq, if_neg hq]
        exact ih

/-- Inserting a key that is absent appends the binding at the end. -/
theorem dictInsert_fresh {α β : Type} [DecidableEq α] {k : α} (v : β) :
    ∀ {d : List (α × β)}, dictLookup k d = none → dictInsert k v d = d ++ [(k, v)] := by
  intro d h
  induction d with
  | nil => rfl
  | cons p rest ih =>
    simp only [dictLookup] at h
    by_cases hk : p.1 = k
    · rw [if_pos hk] at h
      cases h
    · rw [if_neg hk] at h
      simp only [dictInsert]
      rw [if_neg hk, List.cons_append, ih h]

/-- Removing an absent key is a no-op. -/
theorem dictRemove_fresh {α β : Type} [DecidableEq α] {k : α} :
    ∀ {d : List (α × β)}, dictLookup k d = none → dictRemove k d = d := by
  intro d h
  induction d with
  | nil => rfl
  | cons p rest ih =>
    simp only [dictLookup] at h
    by_cases hk : p.1 = k
    · rw [if_pos hk] at h
      cases h
    · rw [if_neg hk] at h
      simp only [dictRemove]
      rw [if_neg hk, ih h]

/-! # Properties

## Hex round-trip and the Merkle root of a singleton -/

theorem hexVal_lt_16 (c : Char) : hexVal c < 16 := by
  unfold hexVal
  split
  · omega
  · split
    · omega
    · split
      · omega
      · omega

theorem hexDigit_hexVal {c : Char} (h : isLowerHexDigit c) : hexDigit (hexVal c) = c := by
  rcases h with ⟨h1, h2⟩ | ⟨h1, h2⟩
  · have hv : hexVal c = c.toNat - 48 := by
      unfold hexVal; rw [if_pos ⟨h1, h2⟩]
    rw [hv]
    unfold hexDigit
    rw [if_pos (by omega)]
    have : 48 + (c.toNat - 48) = c.toNat := by omega
    rw [this, Char.ofNat_toNat]
  · have hv : hexVal c = c.toNat - 87 := by
      unfold hexVal
      rw [if_neg (by omega), if_pos ⟨h1, h2⟩]
    rw [hv]
    unfold hexDigit
    rw [if_neg (by omega)]
    have : 87 + (c.toNat - 87) = c.toNat := by omega
    rw [this, Char.ofNat_toNat]

theorem byteHexChars_pair {c1 c2 : Char} (h1 : isLowerHexDigit c1) (h2 : isLowerHexDigit c2) :
    byteHexChars (hexVal c1 * 16 + hexVal c2) = [c1, c2] := by
  have hb := hexVal_lt_16 c2
  have hd : (hexVal c1 * 16 + hexVal c2) / 16 = hexVal c1 := by omega
  have hm : (hexVal c1 * 16 + hexVal c2) % 16 = hexVal c2 := by omega
  rw [byteHexChars, hd, hm, hexDigit_hexVal h1, hexDigit_hexVal h2]

theorem hexPairs_flatMap : ∀ (l : List Char), l.length % 2 = 0 →
    (∀ c ∈ l, isLowerHexDigit c) → (hexPairs l).flatMap byteHexChars = l
  | [], _, _ => rfl
  | [c], h, _ => by simp at h
  | c1 :: c2 :: rest, h, hall => by
    have hlen : rest.length % 2 = 0 := by simp only [List.length_cons] at h; omega
    have hr := hexPairs_flatMap rest hlen (fun c hc => hall c (by simp [hc]))
    rw [hexPairs, List.flatMap_cons, hr,
      byteHexChars_pair (hall c1 (by simp)) (hall c2 (by simp))]
    rfl

/-- Decoding a canonical hex string and re-encoding it is the identity. -/
theorem bytesToHex_hexToBytes {s : String} (h : IsHexStr s) :
    bytesToHex (hexToBytes s) = s := by
  obtain ⟨l⟩ := s
  have hl : (String.mk l).toList = l := rfl
  rw [bytesToHex, hexToBytes, hl, hexPairs_flatMap l (hl ▸ h.1) (hl ▸ h.2)]

theorem merkle_root_single_eq (t : String) :
    merkle_root [t] = bytesToHex (hexToBytes t) := by
  simp [merkle_root, merkleLoop]

/-- C2 (corrected): the `while len(level) > 1` loop never runs on a
one-element level, so the Merkle root of a single txid is the txid
itself (its byte decoding re-encoded), not the hash of the txid's bytes
concatenated with themselves. -/
theorem merkle_root_single_identity (t : String) (h : IsHexStr t) :
    merkle_root [t] = t := by
  rw [merkle_root_single_eq, bytesToHex_hexToBytes h]

/-- Witness: the amended C2 statement at the concrete txid "aa". -/
theorem merkle_root_single_identity_witness :
    IsHexStr "aa" ∧ merkle_root ["aa"] = "aa" :=
  ⟨by decide, merkle_root_single_identity "aa" (by decide)⟩

/-- C2 (counterexample): at txid "aa" the Merkle root of the singleton
list differs from the SHA-256 of the txid's bytes concatenated with
themselves, refuting the claim as stated. -/
theorem merkle_root_single_not_selfhash :
    merkle_root ["aa"] ≠ sha256_hex (hexToBytes "aa" ++ hexToBytes "aa") := by
  decide

/-! ## Writing transaction outputs into the UTXO set -/

/-- The UTXO keys written when the outputs of a list of transactions
are added (the order `add_genesis_block` applies them in). -/
def writeKeys (txs : List Transaction) : List (String × Nat) :=
  txs.flatMap fun t => (List.range t.outputs.length).map fun j => (t.txid, j)

theorem mem_writeKeys {k : String × Nat} {txs : List Transaction} :
    k ∈ writeKeys txs ↔ ∃ t ∈ txs, k.1 = t.txid ∧ k.2 < t.outputs.length := by
  cases k with
  | mk a b =>
    simp only [writeKeys, List.mem_flatMap, List.mem_map, List.mem_range, Prod.mk.injEq]
    constructor
    · rintro ⟨t, ht, j, hj, rfl, rfl⟩
      exact ⟨t, ht, rfl, hj⟩
    · rintro ⟨t, ht, rfl, hb⟩
      exact ⟨t, ht, b, hb, rfl, rfl⟩

/-- Keys other than the ones being written are untouched by
`addOutputsFrom`. -/
theorem lookup_addOutputsFrom_frame (txid : String) :
    ∀ (outs : List TxOutput) (i : Nat) (u : UTXOSet) (k : String × Nat),
      (∀ j, j < outs.length → k ≠ (txid, i + j)) →
      dictLookup k (addOutputsFrom txid i outs u) = dictLookup k u := by
  intro outs
  induction outs with
  | nil => intro i u k _; rfl
  | cons o rest ih =>
    intro i u k hk
    simp only [addOutputsFrom]
    rw [ih (i + 1) _ k (fun j hj heq => by
      refine hk (j + 1) (by simpa using hj) ?_
      rw [heq]
      congr 1
      omega)]
    exact dictLookup_insert_ne o (hk 0 (by simp)) u

/-- Each output written by `addOutputsFrom` is retrievable at its
index. -/
theorem lookup_addOutputsFrom_present (txid : String) :
    ∀ (outs : List TxOutput) (i j : Nat) (u : UTXOSet) (hj : j < outs.length),
      dictLookup (txid, i + j) (addOutputsFrom txid i outs u) =
        some (outs.get ⟨j, hj⟩) := by
  intro outs
  induction outs with
  | nil => intro i j u hj; cases hj
  | cons o rest ih =>
    intro i j u hj
    cases j with
    | zero =>
      simp only [addOutputsFrom, Nat.add_zero, List.get]
      rw [lookup_addOutputsFrom_frame txid rest (i + 1) _ (txid, i)
        (fun j hj heq => by
          have : i = i + 1 + j := congrArg Prod.snd heq
          omega)]
      exact dictLookup_insert_self (txid, i) o u
    | succ j =>
      simp only [addOutputsFrom, List.get]
      have harr : i + (j + 1) = (i + 1) + j := by omega
      rw [harr]
      exact ih (i + 1) j _ (by simpa using hj)

/-- Frame lemma for the genesis fold: keys no transaction writes keep
their binding. -/
theorem lookup_genesisFold_frame :
    ∀ (txs : List Transaction) (u : UTXOSet) (k : String × Nat),
      (¬ k ∈ writeKeys txs) →
      dictLookup k (txs.foldl (fun u tx => addOutputsFrom tx.txid 0 tx.outputs u) u) =
        dictLookup k u := by
  intro txs
  induction txs with
  | nil => intro u k _; rfl
  | cons t rest ih =>
    intro u k hk
    have h1 : ¬ k ∈ writeKeys rest := fun hin =>
      hk (by simp only [writeKeys, List.flatMap_cons, List.mem_append]; right; exact hin)
    have h2 : ∀ j, j < t.outputs.length → k ≠ (t.txid, 0 + j) := by
      intro j hj heq
      refine hk (mem_writeKeys.mpr ⟨t, List.mem_cons_self t rest, ?_, ?_⟩)
      · rw [heq]
      · rw [heq]; simpa using hj
    rw [List.foldl_cons, ih _ k h1, lookup_addOutputsFrom_frame t.txid t.outputs 0 u k h2]

/-- Each output of each transaction written by the genesis fold is
retrievable at its index, provided the written keys are distinct. -/
theorem lookup_genesisFold_present :
    ∀ (txs : List Transaction) (u : UTXOSet) (tx : Transaction), tx ∈ txs →
      (writeKeys txs).Nodup →
      ∀ j (hj : j < tx.outputs.length),
      dictLookup (tx.txid, j)
          (txs.foldl (fun u tx => addOutputsFrom tx.txid 0 tx.outputs u) u) =
        some (tx.outputs.get ⟨j, hj⟩) := by
  intro txs
  induction txs with
  | nil => intro u tx htx; cases htx
  | cons t rest ih =>
    intro u tx htx hnd j hj
    have hsplit : writeKeys (t :: rest) =
        ((List.range t.outputs.length).map fun j => (t.txid, j)) ++ writeKeys rest := by
      simp [writeKeys, List.flatMap_cons]
    rw [hsplit, List.nodup_append] at hnd
    rcases List.mem_cons.mp htx with rfl | hmem
    · have hkmem : (tx.txid, j) ∈ (List.range tx.outputs.length).map
          (fun j => (tx.txid, j)) := by
        simp only [List.mem_map, List.mem_range]
        exact ⟨j, hj, rfl⟩
      have hnot : ¬ (tx.txid, j) ∈ writeKeys rest := hnd.2.2 hkmem
      rw [List.foldl_cons, lookup_genesisFold_frame rest _ _ hnot]
      have h0 : (tx.txid, j) = (tx.txid, 0 + j) := by simp
      rw [h0]
      exact lookup_addOutputsFrom_present tx.txid tx.outputs 0 j _ hj
    · rw [List.foldl_cons]
      exact ih _ tx hmem hnd.2.1 j hj

/-! ## C5: `add_genesis_block` -/

/-- C5 (counterexample): `add_genesis_block` performs no emptiness
assertion.  Invoked on a chain already holding a block it does not
fail: it proceeds, stores the new block and moves the tip. -/
theorem add_genesis_block_no_assert :
    (add_genesis_block ⟨[("aa", ⟨⟨0, zeros64, "", 0⟩, []⟩)], "aa", []⟩
        ⟨⟨1, "cc", "dd", 5⟩, []⟩).height_tip_hash = (BlockHeader.mk 1 "cc" "dd" 5).hash ∧
    (add_genesis_block ⟨[("aa", ⟨⟨0, zeros64, "", 0⟩, []⟩)], "aa", []⟩
        ⟨⟨1, "cc", "dd", 5⟩, []⟩).blocks_by_hash.length = 2 := by
  constructor
  · rfl
  · decide

/-- C5 (amended): on every chain state — empty or not; there is no
emptiness assertion — `add_genesis_block` stores the block under its
header hash, sets the tip to that hash, and adds every output of every
transaction to the UTXO set without any validation (the block and its
transactions are unconstrained; only distinctness of the written UTXO
keys is assumed so that each output is retrievable afterwards). -/
theorem add_genesis_block_stores (c : Blockchain) (b : Block)
    (hnd : (writeKeys b.txs).Nodup) :
    (add_genesis_block c b).height_tip_hash = b.header.hash ∧
    dictLookup b.header.hash (add_genesis_block c b).blocks_by_hash = some b ∧
    ∀ tx ∈ b.txs, ∀ j (hj : j < tx.outputs.length),
      utxoGet (add_genesis_block c b).utxo tx.txid j = some (tx.outputs.get ⟨j, hj⟩) :=
  ⟨rfl, dictLookup_insert_self _ _ _,
    fun tx htx j hj => lookup_genesisFold_present b.txs c.utxo tx htx hnd j hj⟩

/-- Witness for C5 at the concrete one-asset genesis block on the empty
chain. -/
theorem add_genesis_block_stores_witness :
    (writeKeys (create_genesis 1 ["aa"]).txs).Nodup ∧
    (add_genesis_block emptyChain (create_genesis 1 ["aa"])).height_tip_hash =
      (create_genesis 1 ["aa"]).header.hash :=
  ⟨by decide, (add_genesis_block_stores emptyChain (create_genesis 1 ["aa"]) (by decide)).1⟩

/-! ## C10: no-input transactions are always admitted -/

/-- C10: a transaction with an empty input list validates as
"coinbase/genesis tx" on every ledger state — the outputs are never
examined — and, when its txid is not yet in the mempool,
`receive_transaction` inserts it and forwards it to every peer. -/
theorem receive_transaction_coinbase (verify : String → String → String → Bool)
    (n : FullNode) (outs : List TxOutput)
    (h : dictLookup (Transaction.mk [] outs).txid n.mempool = none) :
    validate_transaction verify n.blockchain (Transaction.mk [] outs) =
      (true, "coinbase/genesis tx") ∧
    receive_transaction verify n (Transaction.mk [] outs) =
      ({ n with mempool := dictInsert (Transaction.mk [] outs).txid (Transaction.mk [] outs) n.mempool }, n.peers) := by
  refine ⟨rfl, ?_⟩
  unfold receive_transaction
  rw [h]
  rfl

/-- Witness for C10: the no-input no-output transaction on a fresh
node. -/
theorem receive_transaction_coinbase_witness :
    dictLookup (Transaction.mk [] []).txid ([] : List (String × Transaction)) = none ∧
    receive_transaction (fun _ _ _ => false) ⟨"F0", emptyChain, [], ["F1"], none⟩
        (Transaction.mk [] []) =
      (⟨"F0", emptyChain, [((Transaction.mk [] []).txid, Transaction.mk [] [])], ["F1"], none⟩,
        ["F1"]) := by
  refine ⟨rfl, ?_⟩
  have := (receive_transaction_coinbase (fun _ _ _ => false)
    ⟨"F0", emptyChain, [], ["F1"], none⟩ [] rfl).2
  rw [this]
  rfl

/-! ## C9: validation is pure

`validate_transaction` only ever reads `self`; to make that a theorem
rather than a modelling choice, the state-threaded rendering below
passes the ledger through every step of the input loop exactly as the
method executes it (the output and signature loops read no ledger
state), and the frame property is proved about it. -/

def scanInputsSt (c : Blockchain) : List TxInput → Option String → Int →
    Blockchain × Except String (Option String × Int)
  | [], acc, tot => (c, .ok (acc, tot))
  | inp :: rest, acc, tot =>
    match utxoGet c.utxo inp.txid_ref inp.index with
    | none =>
      (c, .error ("missing UTXO for (" ++ inp.txid_ref ++ ", " ++ toString inp.index ++ ")"))
    | some o =>
      match acc with
      | none =>
        if sha256_hex (hexToBytes inp.pubkey) ≠ o.pubkey_hash then
          (c, .error "pubkey hash mismatch")
        else scanInputsSt c rest (some o.asset_id) (tot + o.portion)
      | some a =>
        if o.asset_id ≠ a then (c, .error "multiple asset_ids in inputs")
        else if sha256_hex (hexToBytes inp.pubkey) ≠ o.pubkey_hash then
          (c, .error "pubkey hash mismatch")
        else scanInputsSt c rest (some a) (tot + o.portion)

/-- `validate_transaction` with the ledger state threaded through. -/
def validate_transactionSt (verify : String → String → String → Bool) (c : Blockchain)
    (tx : Transaction) : Blockchain × (Bool × String) :=
  if tx.inputs.isEmpty then (c, (true, "coinbase/genesis tx"))
  else
    let res := scanInputsSt c tx.inputs none 0
    match res.2 with
    | .error e => (res.1, (false, e))
    | .ok (a, totalIn) =>
      match scanOutputs a tx.outputs 0 with
      | .error e => (res.1, (false, e))
      | .ok totalOut =>
        if totalIn ≠ totalOut then
          (res.1, (false, "portion mismatch: in=" ++ toString totalIn ++ ", out=" ++
            toString totalOut))
        else if checkSigs verify tx.message_hash tx.inputs then (res.1, (true, "ok"))
        else (res.1, (false, "signature verification failed"))

theorem scanInputsSt_eq (c : Blockchain) :
    ∀ (l : List TxInput) (acc : Option String) (tot : Int),
      scanInputsSt c l acc tot = (c, scanInputs c.utxo l acc tot) := by
  intro l
  induction l with
  | nil => intro acc tot; rfl
  | cons inp rest ih =>
    intro acc tot
    simp only [scanInputsSt, scanInputs]
    cases utxoGet c.utxo inp.txid_ref inp.index with
    | none => rfl
    | some o =>
      cases acc with
      | none =>
        by_cases hh : sha256_hex (hexToBytes inp.pubkey) ≠ o.pubkey_hash
        · simp only [if_pos hh]
        · simp only [if_neg hh, ih]
      | some a =>
        by_cases ha : o.asset_id ≠ a
        · simp only [if_pos ha]
        · by_cases hh : sha256_hex (hexToBytes inp.pubkey) ≠ o.pubkey_hash
          · simp only [if_neg ha, if_pos hh]
          · simp only [if_neg ha, if_neg hh, ih]

theorem validate_transactionSt_eq (verify : String → String → String → Bool)
    (c : Blockchain) (tx : Transaction) :
    validate_transactionSt verify c tx = (c, validate_transaction verify c tx) := by
  unfold validate_transactionSt validate_transaction
  by_cases he : tx.inputs.isEmpty
  · rw [if_pos he, if_pos he]
  · rw [if_neg he, if_neg he, scanInputsSt_eq]
    cases scanInputs c.utxo tx.inputs none 0 with
    | error e => rfl
    | ok p =>
      cases p with
      | mk a totalIn =>
        cases hso : scanOutputs a tx.outputs 0 with
        | error e => simp only [hso]
        | ok totalOut =>
          by_cases ht : totalIn ≠ totalOut
          · simp only [hso, if_pos ht]
          · by_cases hs : checkSigs verify tx.message_hash tx.inputs
            · simp only [hso, if_neg ht, if_pos hs]
            · simp only [hso, if_neg ht, if_neg hs, Bool.false_eq_true, if_false]

/-- C9: validation is pure.  Threading the ledger through every step of
`validate_transaction` returns it unchanged (chain map, tip pointer and
UTXO set), and running the validation a second time on the resulting
state yields the same (ok, reason) pair. -/
theorem validate_transaction_pure (verify : String → String → String → Bool)
    (c : Blockchain) (tx : Transaction) :
    (validate_transactionSt verify c tx).1 = c ∧
    (validate_transactionSt verify (validate_transactionSt verify c tx).1 tx).2 =
      (validate_transactionSt verify c tx).2 := by
  rw [validate_transactionSt_eq]
  exact ⟨rfl, by rw [validate_transactionSt_eq]⟩

/-! ## C6: mining with no valid transactions -/

def leadsWith : List Char → List Char → Bool
  | [], _ => true
  | _ :: _, [] => false
  | p :: ps, x :: xs => p == x && leadsWith ps xs

def hasSub : List Char → List Char → Bool
  | pat, [] => leadsWith pat []
  | pat, x :: xs => leadsWith pat (x :: xs) || hasSub pat xs

/-- `pat` occurs as a contiguous substring of `s`. -/
def strContainsSub (pat s : String) : Bool := hasSub pat.toList s.toList

theorem selectValid_all_invalid (verify : String → String → String → Bool) (c : Blockchain) :
    ∀ (l : List Transaction), (∀ tx ∈ l, (validate_transaction verify c tx).1 = false) →
      selectValid verify c l [] = [] := by
  intro l
  induction l with
  | nil => intro _; rfl
  | cons tx rest ih =>
    intro h
    simp only [selectValid, h tx (by simp), Bool.false_eq_true, if_false, List.nil_append]
    exact ih fun t ht => h t (by simp [ht])

/-- C6: when no pending transaction validates (in particular when the
list is empty), `mine_block` raises "no valid transactions to mine" — a
reason containing "no valid transactions" — before touching any state,
and the node-level `mine` wrapper, having caught the error, leaves the
node (ledger and mempool) unchanged and broadcasts nothing. -/
theorem mine_block_no_valid (verify : String → String → String → Bool) (c : Blockchain)
    (pending : List Transaction) (fuel : Nat) (n : FullNode)
    (h : ∀ tx ∈ pending, (validate_transaction verify c tx).1 = false)
    (hn : ∀ tx ∈ n.mempool.map Prod.snd,
      (validate_transaction verify n.blockchain tx).1 = false) :
    mine_block verify c pending fuel = .err "no valid transactions to mine" ∧
    strContainsSub "no valid transactions" "no valid transactions to mine" = true ∧
    FullNode.mine verify n fuel = (n, none, []) := by
  refine ⟨?_, by decide, ?_⟩
  · unfold mine_block
    rw [selectValid_all_invalid verify c pending h]
    rfl
  · unfold FullNode.mine
    by_cases he : n.mempool.isEmpty
    · rw [if_pos he]
    · rw [if_neg he]
      unfold mine_block
      rw [selectValid_all_invalid verify n.blockchain _ hn]
      rfl

/-- Witness for C6: empty pending list and a fresh node with an empty
mempool; the hypotheses are vacuous. -/
theorem mine_block_no_valid_witness :
    mine_block (fun _ _ _ => false) emptyChain [] 0 = .err "no valid transactions to mine" ∧
    FullNode.mine (fun _ _ _ => false) ⟨"F0", emptyChain, [], [], none⟩ 0 =
      (⟨"F0", emptyChain, [], [], none⟩, none, []) := by
  have h := mine_block_no_valid (fun _ _ _ => false) emptyChain [] 0
    ⟨"F0", emptyChain, [], [], none⟩ (by simp) (by simp)
  exact ⟨h.1, h.2.2⟩

/-! ## C4: `receive_block` and the tip guard -/

/-- C4 (counterexample): the tip guard is `if tip_hash and prev_hash !=
tip_hash`, and the empty string is falsy, so on an *empty* chain a
block whose `prev_hash` differs from the node's tip is *not* silently
rejected: this concrete PoW-valid block of one coinbase transaction,
whose `prev_hash` is garbage, is accepted and moves the tip. -/
theorem receive_block_empty_chain_accepts :
    (Block.mk ⟨0, "1111111111111111111111111111111111111111111111111111111111111111",
        "30f9df1476c1cc091ecfdb6f4b0fe01b65d40c609f16b182a0f2f4deef0d8708", 360790⟩
      [Transaction.mk [] [⟨"asset-0", "aa", 100⟩]]).header.prev_hash ≠
      (FullNode.mk "F0" emptyChain [] [] none).blockchain.height_tip_hash ∧
    (receive_block (fun _ _ _ => false) (FullNode.mk "F0" emptyChain [] [] none)
        (Block.mk ⟨0, "1111111111111111111111111111111111111111111111111111111111111111",
            "30f9df1476c1cc091ecfdb6f4b0fe01b65d40c609f16b182a0f2f4deef0d8708", 360790⟩
          [Transaction.mk [] [⟨"asset-0", "aa", 100⟩]])).blockchain.height_tip_hash ≠
      (FullNode.mk "F0" emptyChain [] [] none).blockchain.height_tip_hash := by
  constructor
  · decide
  · decide

/-- C4 (amended): on a node whose chain is non-empty (the tip hash is a
real hash, not the falsy empty string), `receive_block` silently
rejects any block whose `prev_hash` differs from the tip: chain map,
tip pointer, UTXO set and mempool are all unchanged. -/
theorem receive_block_rejects_non_tip (verify : String → String → String → Bool)
    (n : FullNode) (b : Block) (ht : n.blockchain.height_tip_hash ≠ "")
    (hp : b.header.prev_hash ≠ n.blockchain.height_tip_hash) :
    receive_block verify n b = n := by
  unfold receive_block
  rw [if_pos ⟨ht, hp⟩]

/-- Witness for C4 (amended) at a concrete one-block chain and a
foreign block. -/
theorem receive_block_rejects_non_tip_witness :
    receive_block (fun _ _ _ => false)
        ⟨"F0", ⟨[("aa", ⟨⟨0, zeros64, "", 0⟩, []⟩)], "aa", []⟩, [], [], none⟩
        ⟨⟨1, "bb", "cc", 0⟩, []⟩ =
      ⟨"F0", ⟨[("aa", ⟨⟨0, zeros64, "", 0⟩, []⟩)], "aa", []⟩, [], [], none⟩ :=
  receive_block_rejects_non_tip (fun _ _ _ => false) _ _ (by decide) (by decide)

/-! ## C3: proof-of-work of stored blocks -/

theorem mem_dictInsert {α β : Type} [DecidableEq α] {p : α × β} {k : α} {v : β} :
    ∀ {d : List (α × β)}, p ∈ dictInsert k v d → p = (k, v) ∨ p ∈ d := by
  intro d hp
  induction d with
  | nil => simpa [dictInsert] using hp
  | cons q rest ih =>
    simp only [dictInsert] at hp
    by_cases hk : q.1 = k
    · rw [if_pos hk] at hp
      rcases List.mem_cons.mp hp with rfl | hmem
      · exact Or.inl rfl
      · exact Or.inr (List.mem_cons_of_mem q hmem)
    · rw [if_neg hk] at hp
      rcases List.mem_cons.mp hp with rfl | hmem
      · exact Or.inr (List.mem_cons_self q rest)
      · rcases ih hmem with h | h
        · exact Or.inl h
        · exact Or.inr (List.mem_cons_of_mem q h)

/-- The nonce search only ever returns a hash below the target. -/
theorem powSearch_lt (height : Nat) (prev root : String) :
    ∀ (fuel nonce : Nat) (hdr : BlockHeader) (h : String),
      powSearch height prev root fuel nonce = some (hdr, h) →
      h = hdr.hash ∧ hexToNat h < hexToNat TARGET_HEX := by
  intro fuel
  induction fuel with
  | zero => intro nonce hdr h hp; cases hp
  | succ fuel ih =>
    intro nonce hdr h hp
    simp only [powSearch] at hp
    by_cases hc : hexToNat (BlockHeader.hash ⟨height, prev, root, nonce⟩) < hexToNat TARGET_HEX
    · rw [if_pos hc] at hp
      cases hp
      exact ⟨rfl, hc⟩
    · rw [if_neg hc] at hp
      exact ih _ _ _ hp

theorem foldl_apply_blocks (txs : List Transaction) :
    ∀ (c : Blockchain), (txs.foldl apply_transaction c).blocks_by_hash = c.blocks_by_hash ∧
      (txs.foldl apply_transaction c).height_tip_hash = c.height_tip_hash := by
  induction txs with
  | nil => intro c; exact ⟨rfl, rfl⟩
  | cons tx rest ih => intro c; exact ih (apply_transaction c tx)

theorem foldl_applyRemove_blocks (txs : List Transaction) :
    ∀ (cm : Blockchain × List (String × Transaction)),
      ((txs.foldl (fun cm tx => (apply_transaction cm.1 tx, dictRemove tx.txid cm.2)) cm).1).blocks_by_hash =
        cm.1.blocks_by_hash ∧
      ((txs.foldl (fun cm tx => (apply_transaction cm.1 tx, dictRemove tx.txid cm.2)) cm).1).height_tip_hash =
        cm.1.height_tip_hash := by
  induction txs with
  | nil => intro cm; exact ⟨rfl, rfl⟩
  | cons tx rest ih => intro cm; exact ih (apply_transaction cm.1 tx, dictRemove tx.txid cm.2)

/-- C3 (counterexample): the genesis block built by `create_genesis`
(nonce 0, no mining) and stored by `add_genesis_block` (no PoW check)
sits in the chain map with a header hash *above* the target. -/
theorem genesis_pow_not_checked :
    dictLookup (create_genesis 1 ["aa"]).header.hash
        (add_genesis_block emptyChain (create_genesis 1 ["aa"])).blocks_by_hash =
      some (create_genesis 1 ["aa"]) ∧
    ¬ hexToNat (create_genesis 1 ["aa"]).header.hash < hexToNat TARGET_HEX := by
  constructor
  · decide
  · decide

/-- C3 (amended): every block *added* to the chain map by
`receive_block` or by a successful `mine_block` has a header hash
strictly below the fixed target; `add_genesis_block` stores its block
with no PoW check, so genesis blocks are exempt. -/
theorem accepted_blocks_satisfy_pow (verify : String → String → String → Bool)
    (n : FullNode) (b : Block) (c : Blockchain) (pending : List Transaction)
    (fuel : Nat) (c' : Blockchain) (bm : Block) :
    (∀ p ∈ (receive_block verify n b).blockchain.blocks_by_hash,
      p ∈ n.blockchain.blocks_by_hash ∨ hexToNat p.1 < hexToNat TARGET_HEX) ∧
    (mine_block verify c pending fuel = .mined c' bm →
      ∀ p ∈ c'.blocks_by_hash,
        p ∈ c.blocks_by_hash ∨ hexToNat p.1 < hexToNat TARGET_HEX) := by
  constructor
  · intro p hp
    simp only [receive_block] at hp
    by_cases h1 : n.blockchain.height_tip_hash ≠ "" ∧
        b.header.prev_hash ≠ n.blockchain.height_tip_hash
    · rw [if_pos h1] at hp
      exact Or.inl hp
    · rw [if_neg h1] at hp
      by_cases h2 : hexToNat TARGET_HEX ≤ hexToNat b.header.hash
      · rw [if_pos h2] at hp
        exact Or.inl hp
      · rw [if_neg h2] at hp
        by_cases h3 : b.txs.all fun tx => (validate_transaction verify n.blockchain tx).1
        · rw [if_pos h3] at hp
          rw [(foldl_applyRemove_blocks b.txs _).1] at hp
          rcases mem_dictInsert hp with rfl | hmem
          · exact Or.inr (Nat.lt_of_not_le h2)
          · exact Or.inl hmem
        · rw [if_neg h3] at hp
          exact Or.inl hp
  · intro hm p hp
    unfold mine_block at hm
    by_cases hsel : (selectValid verify c pending []).isEmpty
    · rw [if_pos hsel] at hm
      cases hm
    · rw [if_neg hsel] at hm
      simp only [] at hm
      cases hps : powSearch
          (match c.tip with
            | none => (0, zeros64)
            | some t => (t.header.height + 1, t.header.hash)).1
          (match c.tip with
            | none => (0, zeros64)
            | some t => (t.header.height + 1, t.header.hash)).2
          (merkle_root ((selectValid verify c pending []).map Transaction.txid)) fuel 0 with
      | none =>
        rw [hps] at hm
        cases hm
      | some hh =>
        rw [hps] at hm
        cases hh with
        | mk hdr hsh =>
          cases hm
          rw [(foldl_apply_blocks _ _).1] at hp
          rcases mem_dictInsert hp with rfl | hmem
          · exact Or.inr (powSearch_lt _ _ _ _ _ _ _ hps).2
          · exact Or.inl hmem

/-- Witness for C3: the concrete PoW-valid coinbase block accepted by
`receive_block` on an empty chain is either an old entry or satisfies
the PoW bound. -/
theorem accepted_blocks_satisfy_pow_witness :
    ((("00000b4afe2d9d80b0f40c1095f3b84e06f08c57b7bad5275a0c900dd0463485",
        Block.mk ⟨0, "1111111111111111111111111111111111111111111111111111111111111111",
          "30f9df1476c1cc091ecfdb6f4b0fe01b65d40c609f16b182a0f2f4deef0d8708", 360790⟩
          [Transaction.mk [] [⟨"asset-0", "aa", 100⟩]]) ∈
        (FullNode.mk "F0" emptyChain [] [] none).blockchain.blocks_by_hash) ∨
      hexToNat "00000b4afe2d9d80b0f40c1095f3b84e06f08c57b7bad5275a0c900dd0463485" <
        hexToNat TARGET_HEX) :=
  (accepted_blocks_satisfy_pow (fun _ _ _ => false)
      (FullNode.mk "F0" emptyChain [] [] none)
      (Block.mk ⟨0, "1111111111111111111111111111111111111111111111111111111111111111",
        "30f9df1476c1cc091ecfdb6f4b0fe01b65d40c609f16b182a0f2f4deef0d8708", 360790⟩
        [Transaction.mk [] [⟨"asset-0", "aa", 100⟩]])
      emptyChain [] 0 emptyChain
      (Block.mk ⟨0, zeros64, "", 0⟩ [])).1 _ (by decide)

/-! ## C7: the asset trace -/

/-- Membership in the per-block entry list of `trace_asset`: one entry
per transaction with at least one matching output. -/
theorem mem_traceBlock {hgt : Nat} {key aid : String} {txs : List Transaction}
    {e : Nat × String × Transaction} :
    e ∈ txs.filterMap (fun tx =>
        if tx.outputs.any (fun o => o.asset_id == aid) then some (hgt, key, tx) else none) ↔
      e.1 = hgt ∧ e.2.1 = key ∧ e.2.2 ∈ txs ∧ ∃ o ∈ e.2.2.outputs, o.asset_id = aid := by
  rw [List.mem_filterMap]
  constructor
  · rintro ⟨tx, htx, hf⟩
    by_cases hc : tx.outputs.any fun o => o.asset_id == aid
    · rw [if_pos hc] at hf
      cases hf
      rcases List.any_eq_true.mp hc with ⟨o, ho, heq⟩
      exact ⟨rfl, rfl, htx, o, ho, by simpa using heq⟩
    · rw [if_neg hc] at hf
      cases hf
  · obtain ⟨h, bh, tx⟩ := e
    rintro ⟨rfl, rfl, htx, o, ho, hoa⟩
    refine ⟨tx, htx, ?_⟩
    rw [if_pos (List.any_eq_true.mpr ⟨o, ho, by simpa using hoa⟩)]

/-- C7: `trace_asset` emits, for each block, one tuple per transaction
having at least one output with the asset id (the `break` suppresses
duplicates, so under distinct block hashes and duplicate-free
transaction lists no tuple repeats), and the result is ordered by block
height, newest first. -/
theorem trace_asset_spec (c : Blockchain) (aid : String)
    (hkeys : (dictKeys c.blocks_by_hash).Nodup)
    (htxs : ∀ p ∈ c.blocks_by_hash, p.2.txs.Nodup) :
    (trace_asset c aid).Pairwise (fun x y => y.1 ≤ x.1) ∧
    (∀ (h : Nat) (bh : String) (tx : Transaction), (h, bh, tx) ∈ trace_asset c aid ↔
      ∃ blk, (bh, blk) ∈ c.blocks_by_hash ∧ blk.header.height = h ∧ tx ∈ blk.txs ∧
        ∃ o ∈ tx.outputs, o.asset_id = aid) ∧
    (trace_asset c aid).Nodup := by
  have hperm := List.mergeSort_perm c.blocks_by_hash
    (fun a b => b.2.header.height ≤ a.2.header.height)
  refine ⟨?_, ?_, ?_⟩
  · unfold trace_asset
    rw [List.pairwise_flatMap]
    constructor
    · intro bb _
      refine List.pairwise_of_forall_mem_list fun x hx y hy => ?_
      rw [(mem_traceBlock.mp hx).1, (mem_traceBlock.mp hy).1]
    · have hsorted := @List.sorted_mergeSort (String × Block)
        (fun a b => decide (b.2.header.height ≤ a.2.header.height))
        (fun a b c hab hbc => by
          simp only [decide_eq_true_eq] at hab hbc ⊢
          omega)
        (fun a b => by
          simp only [Bool.or_eq_true, decide_eq_true_eq]
          omega)
        c.blocks_by_hash
      refine hsorted.imp fun hab => ?_
      intro x hx y hy
      rw [(mem_traceBlock.mp hx).1, (mem_traceBlock.mp hy).1]
      simpa using hab
  · intro h bh tx
    unfold trace_asset
    rw [List.mem_flatMap]
    constructor
    · rintro ⟨bb, hbb, he⟩
      rcases mem_traceBlock.mp he with ⟨h1, h2, h3, ho⟩
      refine ⟨bb.2, ?_, h1.symm, h3, ho⟩
      have hmem : bb ∈ c.blocks_by_hash := (List.mem_mergeSort).mp hbb
      have h2' : bh = bb.1 := h2
      rw [h2', Prod.mk.eta]
      exact hmem
    · rintro ⟨blk, hblk, hh, htx2, ho⟩
      refine ⟨(bh, blk), (List.mem_mergeSort).mpr hblk, mem_traceBlock.mpr ⟨hh.symm, rfl, htx2, ho⟩⟩
  · unfold trace_asset
    rw [List.nodup_flatMap]
    constructor
    · intro bb hbb
      refine List.Nodup.filterMap ?_ (htxs bb ((List.mem_mergeSort).mp hbb))
      intro a a' b hb hb'
      by_cases hc : a.outputs.any fun o => o.asset_id == aid
      · by_cases hc2 : a'.outputs.any fun o => o.asset_id == aid
        · rw [if_pos hc] at hb
          rw [if_pos hc2] at hb'
          simp only [Option.mem_def, Option.some.injEq] at hb hb'
          exact congrArg (fun p => p.2.2) (hb.trans hb'.symm)
        · rw [if_neg hc2] at hb'
          simp at hb'
      · rw [if_neg hc] at hb
        simp at hb
    · have hne : (List.mergeSort c.blocks_by_hash
          (fun a b => b.2.header.height ≤ a.2.header.height)).Pairwise
          (fun a b => a.1 ≠ b.1) :=
        (hperm.pairwise_iff (fun {x y} h => Ne.symm h)).mpr (List.pairwise_map.mp hkeys)
      refine hne.imp fun hab => ?_
      intro x hx hx2
      have e1 := (mem_traceBlock.mp hx).2.1
      have e2 := (mem_traceBlock.mp hx2).2.1
      exact hab (e1 ▸ e2 ▸ rfl)

/-- Witness for C7 on a concrete two-block chain (heights 0 and 1, one
coinbase transaction each): the hypotheses hold by computation and the
trace is height-descending. -/
theorem trace_asset_spec_witness :
    (trace_asset ⟨[("b0", ⟨⟨0, zeros64, "", 0⟩, [⟨[], [⟨"asset-0", "aa", 100⟩]⟩]⟩),
        ("b1", ⟨⟨1, "b0", "", 0⟩, [⟨[], [⟨"asset-0", "bb", 100⟩]⟩]⟩)], "b1", []⟩
      "asset-0").Pairwise (fun x y => y.1 ≤ x.1) :=
  (trace_asset_spec _ "asset-0" (by decide) (by decide)).1

/-! ## C8: the chain walk terminates and is well-formed

Termination of `build_chain_from_tip` on arbitrary — also adversarial —
block maps is established by `chainWalk`'s well-founded recursion on
the set of unvisited keys (cycles revisit a key, missing blocks and the
genesis sentinel stop the loop); the theorems below add that the
returned list is tip-first, repeats no hash, and only contains blocks
of the map. -/

/-- The walk only ever appends to its accumulator. -/
theorem chainWalk_prefix (blocks : List (String × Block)) :
    ∀ (cur : String) (visited : List String) (acc : List (String × Block)),
      ∃ tl, chainWalk blocks cur visited acc = acc ++ tl := by
  intro cur visited acc
  induction cur, visited, acc using chainWalk.induct blocks with
  | case1 cur visited acc hstop =>
    exact ⟨[], by rw [chainWalk, dif_pos hstop, List.append_nil]⟩
  | case2 cur visited acc hstop hlook =>
    refine ⟨[], ?_⟩
    rw [chainWalk, dif_neg hstop, List.append_nil]
    split
    · rfl
    · rename_i blk heq
      rw [hlook] at heq
      cases heq
  | case3 cur visited acc hstop blk hlook hgen =>
    refine ⟨[(cur, blk)], ?_⟩
    rw [chainWalk, dif_neg hstop]
    split
    · rename_i heq
      rw [hlook] at heq
      cases heq
    · rename_i blk2 heq
      rw [hlook] at heq
      injection heq with heq2
      subst heq2
      rw [if_pos hgen]
  | case4 cur visited acc hstop blk hlook hgen ih =>
    obtain ⟨tl, htl⟩ := ih
    refine ⟨(cur, blk) :: tl, ?_⟩
    rw [chainWalk, dif_neg hstop]
    split
    · rename_i heq
      rw [hlook] at heq
      cases heq
    · rename_i blk2 heq
      rw [hlook] at heq
      injection heq with heq2
      subst heq2
      rw [if_neg hgen, htl, List.append_assoc]
      rfl

/-- Invariant of the walk: distinct hashes, and every entry is a
binding of the block map. -/
theorem chainWalk_inv (blocks : List (String × Block)) :
    ∀ (cur : String) (visited : List String) (acc : List (String × Block)),
      (acc.map Prod.fst).Nodup →
      (∀ x ∈ acc.map Prod.fst, x ∈ visited) →
      (∀ p ∈ acc, dictLookup p.1 blocks = some p.2) →
      ((chainWalk blocks cur visited acc).map Prod.fst).Nodup ∧
      (∀ p ∈ chainWalk blocks cur visited acc, dictLookup p.1 blocks = some p.2) := by
  intro cur visited acc
  induction cur, visited, acc using chainWalk.induct blocks with
  | case1 cur visited acc hstop =>
    intro h1 _ h3
    rw [chainWalk, dif_pos hstop]
    exact ⟨h1, h3⟩
  | case2 cur visited acc hstop hlook =>
    intro h1 _ h3
    rw [chainWalk, dif_neg hstop]
    split
    · exact ⟨h1, h3⟩
    · rename_i blk heq
      rw [hlook] at heq
      cases heq
  | case3 cur visited acc hstop blk hlook hgen =>
    intro h1 h2 h3
    rw [chainWalk, dif_neg hstop]
    split
    · rename_i heq
      rw [hlook] at heq
      cases heq
    · rename_i blk2 heq
      rw [hlook] at heq
      injection heq with heq2
      subst heq2
      rw [if_pos hgen]
      push_neg at hstop
      constructor
      · rw [List.map_append]
        have hcur : ¬ cur ∈ acc.map Prod.fst := fun hc => hstop.2 (h2 cur hc)
        simpa [List.concat_eq_append] using h1.concat hcur
      · intro p hp
        rcases List.mem_append.mp hp with hpa | hpc
        · exact h3 p hpa
        · rcases List.mem_singleton.mp hpc with rfl
          exact hlook
  | case4 cur visited acc hstop blk hlook hgen ih =>
    intro h1 h2 h3
    rw [chainWalk, dif_neg hstop]
    split
    · rename_i heq
      rw [hlook] at heq
      cases heq
    · rename_i blk2 heq
      rw [hlook] at heq
      injection heq with heq2
      subst heq2
      rw [if_neg hgen]
      push_neg at hstop
      have hcur : ¬ cur ∈ acc.map Prod.fst := fun hc => hstop.2 (h2 cur hc)
      refine ih ?_ ?_ ?_
      · rw [List.map_append]
        simpa [List.concat_eq_append] using h1.concat hcur
      · intro x hx
        rw [List.map_append] at hx
        rcases List.mem_append.mp hx with hxa | hxc
        · exact List.mem_cons_of_mem cur (h2 x hxa)
        · rcases List.mem_singleton.mp hxc with rfl
          exact List.mem_cons_self _ _
      · intro p hp
        rcases List.mem_append.mp hp with hpa | hpc
        · exact h3 p hpa
        · rcases List.mem_singleton.mp hpc with rfl
          exact hlook

/-- C8: `build_chain_from_tip` is a total function (the walk's
recursion is well-founded on the unvisited keys even for adversarial
maps with prev-hash cycles or missing blocks), and its result repeats
no block hash, contains only bindings of the block map — hence is no
longer than the map — and starts at the tip when non-empty. -/
theorem build_chain_from_tip_spec (c : Blockchain) :
    ((build_chain_from_tip c).map Prod.fst).Nodup ∧
    (∀ p ∈ build_chain_from_tip c, dictLookup p.1 c.blocks_by_hash = some p.2) ∧
    (build_chain_from_tip c).length ≤ c.blocks_by_hash.length ∧
    (∀ q, (build_chain_from_tip c).head? = some q → q.1 = c.height_tip_hash) := by
  obtain ⟨hnd, hmem⟩ := chainWalk_inv c.blocks_by_hash c.height_tip_hash [] []
    (by simp) (by simp) (by simp)
  refine ⟨hnd, hmem, ?_, ?_⟩
  · have hsub : (build_chain_from_tip c).map Prod.fst ⊆ dictKeys c.blocks_by_hash :=
      fun x hx => by
        rcases List.mem_map.mp hx with ⟨p, hp, rfl⟩
        exact mem_dictKeys_of_lookup (hmem p hp)
    have hle := (List.subperm_of_subset hnd hsub).length_le
    rw [List.length_map] at hle
    rw [← List.length_map c.blocks_by_hash Prod.fst]
    exact hle
  · intro q hq
    unfold build_chain_from_tip at hq
    rw [chainWalk] at hq
    by_cases hstop : c.height_tip_hash = "" ∨ c.height_tip_hash ∈ ([] : List String)
    · rw [dif_pos hstop] at hq
      cases hq
    · rw [dif_neg hstop] at hq
      split at hq
      · cases hq
      · rename_i blk heq
        by_cases hgen : blk.header.prev_hash = zeros64
        · rw [if_pos hgen] at hq
          simp only [List.nil_append, List.head?_cons, Option.some.injEq] at hq
          rw [← hq]
        · rw [if_neg hgen] at hq
          obtain ⟨tl, htl⟩ := chainWalk_prefix c.blocks_by_hash blk.header.prev_hash
            (c.height_tip_hash :: []) ([] ++ [(c.height_tip_hash, blk)])
          rw [htl] at hq
          simp only [List.nil_append, List.cons_append, List.head?_cons,
            Option.some.injEq] at hq
          rw [← hq]

/-- Witness for C8 on a concrete one-block chain. -/
theorem build_chain_from_tip_spec_witness :
    ((build_chain_from_tip ⟨[("aa", ⟨⟨0, zeros64, "", 0⟩, []⟩)], "aa", []⟩).map Prod.fst).Nodup ∧
    (build_chain_from_tip ⟨[("aa", ⟨⟨0, zeros64, "", 0⟩, []⟩)], "aa", []⟩).length ≤ 1 :=
  ⟨(build_chain_from_tip_spec ⟨[("aa", ⟨⟨0, zeros64, "", 0⟩, []⟩)], "aa", []⟩).1,
    (build_chain_from_tip_spec ⟨[("aa", ⟨⟨0, zeros64, "", 0⟩, []⟩)], "aa", []⟩).2.2.1⟩

/-! ## C1: asset conservation

Bookkeeping for the unspent sum of one asset under the UTXO-set
operations that `apply_transaction` and the genesis fold perform. -/

/-- The outpoints a transaction spends. -/
def inKeys (tx : Transaction) : List (String × Nat) :=
  tx.inputs.map fun inp => (inp.txid_ref, inp.index)

/-- Total portion a list of outputs carries for one asset. -/
def outsSum (outs : List TxOutput) (x : String) : Int :=
  (outs.map fun o => if o.asset_id = x then o.portion else 0).sum

/-- Total portion, for one asset, of the outputs a list of inputs
references in `u`. -/
def spentFor (u : UTXOSet) (l : List TxInput) (x : String) : Int :=
  (l.map fun inp =>
    match utxoGet u inp.txid_ref inp.index with
    | some o => if o.asset_id = x then o.portion else 0
    | none => 0).sum

theorem assetSum_nil (x : String) : assetSum [] x = 0 := rfl

theorem assetSum_cons (e : (String × Nat) × TxOutput) (u : UTXOSet) (x : String) :
    assetSum (e :: u) x =
      (if e.2.asset_id = x then e.2.portion else 0) + assetSum u x := by
  by_cases h : e.2.asset_id = x
  · simp [assetSum, List.filter_cons, h]
  · simp [assetSum, List.filter_cons, h]

/-- Removing a key subtracts exactly the contribution of its first
binding. -/
theorem assetSum_dictRemove (k : String × Nat) (x : String) :
    ∀ (u : UTXOSet),
      assetSum (dictRemove k u) x =
        assetSum u x -
          (match dictLookup k u with
            | some o => if o.asset_id = x then o.portion else 0
            | none => 0) := by
  intro u
  induction u with
  | nil => simp [dictRemove, dictLookup, assetSum]
  | cons e rest ih =>
    by_cases hk : e.1 = k
    · simp only [dictRemove, dictLookup, if_pos hk, assetSum_cons]
      omega
    · simp only [dictRemove, dictLookup, if_neg hk, assetSum_cons, ih]
      omega

theorem dictLookup_remove_ne {α β : Type} [DecidableEq α] {q k : α} (h : q ≠ k) :
    ∀ (d : List (α × β)), dictLookup q (dictRemove k d) = dictLookup q d := by
  intro d
  induction d with
  | nil => rfl
  | cons e rest ih =>
    by_cases hk : e.1 = k
    · have hne : ¬ e.1 = q := fun he => h (he ▸ hk)
      simp only [dictRemove, if_pos hk, dictLookup]
      rw [if_neg hne]
    · simp only [dictRemove, if_neg hk, dictLookup]
      by_cases hq : e.1 = q
      · rw [if_pos hq, if_pos hq]
      · rw [if_neg hq, if_neg hq]
        exact ih

theorem dictLookup_remove_none {α β : Type} [DecidableEq α] {q k : α} :
    ∀ {d : List (α × β)}, dictLookup q d = none → dictLookup q (dictRemove k d) = none := by
  intro d h
  induction d with
  | nil => rfl
  | cons e rest ih =>
    simp only [dictLookup] at h
    by_cases hq : e.1 = q
    · rw [if_pos hq] at h
      cases h
    · rw [if_neg hq] at h
      by_cases hk : e.1 = k
      · simp only [dictRemove, if_pos hk]
        exact h
      · simp only [dictRemove, if_neg hk, dictLookup]
        rw [if_neg hq]
        exact ih h

theorem assetSum_append_one (u : UTXOSet) (k : String × Nat) (o : TxOutput) (x : String) :
    assetSum (u ++ [(k, o)]) x =
      assetSum u x + (if o.asset_id = x then o.portion else 0) := by
  induction u with
  | nil => simp [assetSum_cons, assetSum_nil]
  | cons e rest ih =>
    rw [List.cons_append, assetSum_cons, assetSum_cons, ih]
    omega

theorem dictLookup_append_one_none {α β : Type} [DecidableEq α] {q k : α} (v : β)
    (h2 : k ≠ q) : ∀ {d : List (α × β)}, dictLookup q d = none →
      dictLookup q (d ++ [(k, v)]) = none := by
  intro d h
  induction d with
  | nil =>
    simp only [List.nil_append, dictLookup]
    rw [if_neg h2]
  | cons e rest ih =>
    simp only [dictLookup] at h
    by_cases hq : e.1 = q
    · rw [if_pos hq] at h
      cases h
    · rw [if_neg hq] at h
      simp only [List.cons_append, dictLookup]
      rw [if_neg hq]
      exact ih h

/-- Writing fresh outputs adds exactly their per-asset total. -/
theorem assetSum_addOutputsFrom (txid : String) (x : String) :
    ∀ (outs : List TxOutput) (i : Nat) (u : UTXOSet),
      (∀ j, j < outs.length → dictLookup (txid, i + j) u = none) →
      assetSum (addOutputsFrom txid i outs u) x = assetSum u x + outsSum outs x := by
  intro outs
  induction outs with
  | nil => intro i u _; simp [addOutputsFrom, outsSum]
  | cons o rest ih =>
    intro i u hfresh
    have h0 : dictLookup (txid, i) u = none := by
      have := hfresh 0 (by simp)
      simpa using this
    have hins : utxoAdd u txid i o = u ++ [((txid, i), o)] := dictInsert_fresh o h0
    simp only [addOutputsFrom, hins]
    rw [ih (i + 1) _ (fun j hj => by
      refine dictLookup_append_one_none o (fun he => ?_) ?_
      · have : i = i + 1 + j := (Prod.mk.injEq _ _ _ _).mp he |>.2
        omega
      · have := hfresh (j + 1) (by simpa using hj)
        have harr : i + (j + 1) = i + 1 + j := by omega
        rwa [harr] at this)]
    rw [assetSum_append_one]
    simp only [outsSum, List.map_cons, List.sum_cons]
    omega

/-- Spending a list of pairwise-distinct outpoints keeps the lookups of
all other keys. -/
theorem removeFold_frame (q : String × Nat) :
    ∀ (l : List TxInput) (u : UTXOSet),
      (∀ inp ∈ l, (inp.txid_ref, inp.index) ≠ q) →
      dictLookup q (l.foldl (fun u inp => utxoRemove u inp.txid_ref inp.index) u) =
        dictLookup q u := by
  intro l
  induction l with
  | nil => intro u _; rfl
  | cons inp rest ih =>
    intro u hq
    rw [List.foldl_cons, ih _ (fun i hi => hq i (List.mem_cons_of_mem inp hi))]
    exact dictLookup_remove_ne (fun he => hq inp (List.mem_cons_self _ _) he.symm) u

/-- Spending preserves the absence of a key. -/
theorem removeFold_none {q : String × Nat} :
    ∀ (l : List TxInput) (u : UTXOSet), dictLookup q u = none →
      dictLookup q (l.foldl (fun u inp => utxoRemove u inp.txid_ref inp.index) u) = none := by
  intro l
  induction l with
  | nil => intro u h; exact h
  | cons inp rest ih =>
    intro u h
    rw [List.foldl_cons]
    exact ih _ (dictLookup_remove_none h)

/-- Spending a list of pairwise-distinct outpoints subtracts exactly
their per-asset total. -/
theorem assetSum_removeFold (x : String) :
    ∀ (l : List TxInput) (u : UTXOSet), (l.map fun inp => (inp.txid_ref, inp.index)).Nodup →
      assetSum (l.foldl (fun u inp => utxoRemove u inp.txid_ref inp.index) u) x =
        assetSum u x - spentFor u l x := by
  intro l
  induction l with
  | nil => intro u _; simp [spentFor]
  | cons inp rest ih =>
    intro u hnd
    rw [List.map_cons, List.nodup_cons] at hnd
    rw [List.foldl_cons, ih _ hnd.2]
    have hsp : spentFor (utxoRemove u inp.txid_ref inp.index) rest x = spentFor u rest x := by
      unfold spentFor
      congr 1
      refine List.map_congr_left fun i hi => ?_
      have hne : (i.txid_ref, i.index) ≠ (inp.txid_ref, inp.index) := by
        intro he
        exact hnd.1 (he ▸ List.mem_map_of_mem (fun inp => (inp.txid_ref, inp.index)) hi)
      unfold utxoGet utxoRemove
      rw [dictLookup_remove_ne hne]
    rw [hsp]
    unfold utxoRemove
    rw [assetSum_dictRemove (inp.txid_ref, inp.index) x u]
    unfold spentFor utxoGet
    simp only [List.map_cons, List.sum_cons]
    omega

/-- What a successful input scan entered with a known asset id
guarantees: every referenced output exists and carries that asset, and
the accumulated total is exactly the per-asset spent total. -/
theorem scanInputs_some_spec (u : UTXOSet) :
    ∀ (l : List TxInput) (a : String) (t : Int) (acc' : Option String) (tot : Int),
      scanInputs u l (some a) t = .ok (acc', tot) →
      acc' = some a ∧
      (∀ inp ∈ l, ∃ o, utxoGet u inp.txid_ref inp.index = some o ∧ o.asset_id = a) ∧
      (∀ x, spentFor u l x = if x = a then tot - t else 0) := by
  intro l
  induction l with
  | nil =>
    intro a t acc' tot hp
    simp only [scanInputs] at hp
    cases hp
    refine ⟨rfl, by simp, fun x => ?_⟩
    simp only [spentFor, List.map_nil, List.sum_nil]
    split <;> omega
  | cons inp rest ih =>
    intro a t acc' tot hp
    simp only [scanInputs] at hp
    cases hlo : utxoGet u inp.txid_ref inp.index with
    | none =>
      simp only [hlo] at hp
      cases hp
    | some o =>
      simp only [hlo] at hp
      by_cases hasset : o.asset_id ≠ a
      · simp only [if_pos hasset] at hp
        cases hp
      · simp only [if_neg hasset] at hp
        push_neg at hasset
        by_cases hpk : sha256_hex (hexToBytes inp.pubkey) ≠ o.pubkey_hash
        · simp only [if_pos hpk] at hp
          cases hp
        · simp only [if_neg hpk] at hp
          obtain ⟨hacc, hpres, hsum⟩ := ih a (t + o.portion) acc' tot hp
          refine ⟨hacc, ?_, ?_⟩
          · intro i hi
            rcases List.mem_cons.mp hi with rfl | hmem
            · exact ⟨o, hlo, hasset⟩
            · exact hpres i hmem
          · intro x
            simp only [spentFor, List.map_cons, List.sum_cons, hlo]
            have := hsum x
            simp only [spentFor] at this
            rw [this]
            by_cases hx : x = a
            · rw [if_pos hx, if_pos hx, if_pos (hasset.trans hx.symm)]
              omega
            · rw [if_neg hx, if_neg hx, if_neg (fun ho => hx (ho.symm.trans hasset))]
              omega

/-- What a successful input scan of a non-empty input list guarantees:
a single asset id, existing referenced outputs, and the accumulated
total equal to the per-asset spent total. -/
theorem scanInputs_none_spec (u : UTXOSet) (l : List TxInput) (hl : l ≠ [])
    (acc' : Option String) (tot : Int)
    (hp : scanInputs u l none 0 = .ok (acc', tot)) :
    ∃ a, acc' = some a ∧
      (∀ inp ∈ l, ∃ o, utxoGet u inp.txid_ref inp.index = some o ∧ o.asset_id = a) ∧
      (∀ x, spentFor u l x = if x = a then tot else 0) := by
  cases l with
  | nil => exact absurd rfl hl
  | cons inp rest =>
    simp only [scanInputs] at hp
    cases hlo : utxoGet u inp.txid_ref inp.index with
    | none =>
      simp only [hlo] at hp
      cases hp
    | some o =>
      simp only [hlo] at hp
      by_cases hpk : sha256_hex (hexToBytes inp.pubkey) ≠ o.pubkey_hash
      · simp only [if_pos hpk] at hp
        cases hp
      · simp only [if_neg hpk] at hp
        obtain ⟨hacc, hpres, hsum⟩ := scanInputs_some_spec u rest o.asset_id
          (0 + o.portion) acc' tot hp
        refine ⟨o.asset_id, hacc, ?_, ?_⟩
        · intro i hi
          rcases List.mem_cons.mp hi with rfl | hmem
          · exact ⟨o, hlo, rfl⟩
          · exact hpres i hmem
        · intro x
          simp only [spentFor, List.map_cons, List.sum_cons, hlo]
          have := hsum x
          simp only [spentFor] at this
          rw [this]
          by_cases hx : x = o.asset_id
          · rw [if_pos hx, if_pos hx, if_pos hx.symm]
            omega
          · rw [if_neg hx, if_neg hx, if_neg (fun ho => hx ho.symm)]
            omega

/-- A successful output scan against a known asset id: every output
carries it and the per-asset total is the accumulated sum. -/
theorem scanOutputs_spec (a : String) :
    ∀ (l : List TxOutput) (t tot : Int), scanOutputs (some a) l t = .ok tot →
      ∀ x, outsSum l x = if x = a then tot - t else 0 := by
  intro l
  induction l with
  | nil =>
    intro t tot hp x
    simp only [scanOutputs] at hp
    cases hp
    simp only [outsSum, List.map_nil, List.sum_nil]
    split <;> omega
  | cons o rest ih =>
    intro t tot hp x
    simp only [scanOutputs] at hp
    by_cases ha : (some o.asset_id ≠ some a)
    · simp only [if_pos ha] at hp
      cases hp
    · simp only [if_neg ha] at hp
      push_neg at ha
      have hoa : o.asset_id = a := Option.some.inj ha
      have := ih (t + o.portion) tot hp x
      simp only [outsSum, List.map_cons, List.sum_cons]
      simp only [outsSum] at this
      rw [this]
      by_cases hx : x = a
      · rw [if_pos hx, if_pos hx, if_pos (hoa.trans hx.symm)]
        omega
      · rw [if_neg hx, if_neg hx, if_neg (fun ho => hx (ho.symm.trans hoa))]
        omega

/-- A transaction with inputs that passes validation: its inputs
reference existing outputs of one common asset, and the spent total for
that asset equals the output total (zero for every other asset). -/
theorem validate_true_spec (verify : String → String → String → Bool) (c : Blockchain)
    (tx : Transaction) (hne : tx.inputs ≠ [])
    (hv : (validate_transaction verify c tx).1 = true) :
    ∃ a totalIn,
      (∀ inp ∈ tx.inputs, ∃ o, utxoGet c.utxo inp.txid_ref inp.index = some o ∧
        o.asset_id = a) ∧
      (∀ x, spentFor c.utxo tx.inputs x = if x = a then totalIn else 0) ∧
      (∀ x, outsSum tx.outputs x = if x = a then totalIn else 0) := by
  unfold validate_transaction at hv
  rw [if_neg (by simpa using hne)] at hv
  cases hsc : scanInputs c.utxo tx.inputs none 0 with
  | error e =>
    rw [hsc] at hv
    simp at hv
  | ok p =>
    rw [hsc] at hv
    obtain ⟨acc, ti⟩ := p
    obtain ⟨a, hacc, hpres, hsum⟩ := scanInputs_none_spec c.utxo tx.inputs hne acc ti hsc
    subst hacc
    cases hso : scanOutputs (some a) tx.outputs 0 with
    | error e =>
      simp only [hso] at hv
      simp at hv
    | ok tout =>
      simp only [hso] at hv
      by_cases hti : ti ≠ tout
      · simp only [if_pos hti] at hv
        simp at hv
      · push_neg at hti
        refine ⟨a, ti, hpres, hsum, fun x => ?_⟩
        have := scanOutputs_spec a tx.outputs 0 tout hso x
        rw [this]
        rw [hti]
        simp

/-- Validation reads the UTXO set only at the transaction's own
outpoints, so it is stable under state changes elsewhere. -/
theorem scanInputs_congr (u u' : UTXOSet) :
    ∀ (l : List TxInput) (acc : Option String) (t : Int),
      (∀ inp ∈ l, utxoGet u' inp.txid_ref inp.index = utxoGet u inp.txid_ref inp.index) →
      scanInputs u' l acc t = scanInputs u l acc t := by
  intro l
  induction l with
  | nil => intro acc t _; rfl
  | cons inp rest ih =>
    intro acc t h
    have hh := h inp (List.mem_cons_self _ _)
    simp only [scanInputs, hh]
    have hrest : ∀ i ∈ rest, utxoGet u' i.txid_ref i.index = utxoGet u i.txid_ref i.index :=
      fun i hi => h i (List.mem_cons_of_mem _ hi)
    cases hlo : utxoGet u inp.txid_ref inp.index with
    | none => rfl
    | some o =>
      cases acc with
      | none =>
        by_cases hpk : sha256_hex (hexToBytes inp.pubkey) ≠ o.pubkey_hash
        · simp only [if_pos hpk]
        · simp only [if_neg hpk]
          exact ih _ _ hrest
      | some a =>
        by_cases ha : o.asset_id ≠ a
        · simp only [if_pos ha]
        · by_cases hpk : sha256_hex (hexToBytes inp.pubkey) ≠ o.pubkey_hash
          · simp only [if_neg ha, if_pos hpk]
          · simp only [if_neg ha, if_neg hpk]
            exact ih _ _ hrest

theorem validate_transaction_congr (verify : String → String → String → Bool)
    (c c' : Blockchain) (tx : Transaction)
    (h : ∀ inp ∈ tx.inputs,
      utxoGet c'.utxo inp.txid_ref inp.index = utxoGet c.utxo inp.txid_ref inp.index) :
    validate_transaction verify c' tx = validate_transaction verify c tx := by
  unfold validate_transaction
  rw [scanInputs_congr c.utxo c'.utxo tx.inputs none 0 h]

/-- The shape of the UTXO set after `apply_transaction`. -/
theorem apply_transaction_utxo (c : Blockchain) (tx : Transaction) :
    (apply_transaction c tx).utxo =
      addOutputsFrom tx.txid 0 tx.outputs
        (tx.inputs.foldl (fun u inp => utxoRemove u inp.txid_ref inp.index) c.utxo) := rfl

/-- Applying one validated spending transaction with distinct spent
outpoints and fresh output keys preserves every asset's unspent sum. -/
theorem apply_transaction_conserves (verify : String → String → String → Bool)
    (c : Blockchain) (tx : Transaction) (hne : tx.inputs ≠ [])
    (hv : (validate_transaction verify c tx).1 = true)
    (hkeys : (inKeys tx).Nodup)
    (hfresh : ∀ j, j < tx.outputs.length → dictLookup (tx.txid, j) c.utxo = none) :
    ∀ x, assetSum (apply_transaction c tx).utxo x = assetSum c.utxo x := by
  intro x
  obtain ⟨a, totalIn, _, hsum, hout⟩ := validate_true_spec verify c tx hne hv
  rw [apply_transaction_utxo]
  rw [assetSum_addOutputsFrom tx.txid x tx.outputs 0 _ (fun j hj => by
    rw [Nat.zero_add]
    exact removeFold_none tx.inputs c.utxo (hfresh j hj))]
  rw [assetSum_removeFold x tx.inputs c.utxo hkeys]
  rw [hsum x, hout x]
  by_cases hx : x = a
  · rw [if_pos hx]
    omega
  · rw [if_neg hx]
    omega

/-- The chain component of `receive_block`'s combined apply/evict fold
is the plain transaction-application fold. -/
theorem pairfold_fst :
    ∀ (txs : List Transaction) (cm : Blockchain × List (String × Transaction)),
      (txs.foldl (fun cm tx => (apply_transaction cm.1 tx, dictRemove tx.txid cm.2)) cm).1 =
        txs.foldl apply_transaction cm.1 := by
  intro txs
  induction txs with
  | nil => intro cm; rfl
  | cons tx rest ih => intro cm; exact ih (apply_transaction cm.1 tx, dictRemove tx.txid cm.2)

/-- Everything the mining selection keeps (beyond its accumulator)
validates against the current state. -/
theorem selectValid_valid (verify : String → String → String → Bool) (c : Blockchain) :
    ∀ (l : List Transaction) (sel : List Transaction) (tx : Transaction),
      tx ∈ selectValid verify c l sel →
      tx ∈ sel ∨ (validate_transaction verify c tx).1 = true := by
  intro l
  induction l with
  | nil => intro sel tx h; exact Or.inl h
  | cons t rest ih =>
    intro sel tx h
    simp only [selectValid] at h
    by_cases hv : (validate_transaction verify c t).1 = true
    · simp only [hv, if_true] at h
      by_cases hlen : MAX_TX_PER_BLOCK ≤ (sel ++ [t]).length
      · rw [if_pos hlen] at h
        rcases List.mem_append.mp h with hs | hs
        · exact Or.inl hs
        · rcases List.mem_singleton.mp hs with rfl
          exact Or.inr hv
      · rw [if_neg hlen] at h
        rcases ih _ _ h with hs | hs
        · rcases List.mem_append.mp hs with hs2 | hs2
          · exact Or.inl hs2
          · rcases List.mem_singleton.mp hs2 with rfl
            exact Or.inr hv
        · exact Or.inr hs
    · simp only [hv, Bool.false_eq_true, if_false] at h
      by_cases hlen : MAX_TX_PER_BLOCK ≤ sel.length
      · rw [if_pos hlen] at h
        exact Or.inl h
      · rw [if_neg hlen] at h
        exact ih _ _ h

/-- Sequentially applying a list of transactions that all validated
against the pre-state `c0` — as `receive_block` and `mine_block` do —
preserves every asset's unspent sum, provided the spent outpoints are
pairwise distinct across the list and the created outputs' keys are
fresh and pairwise distinct.  `c` is the intermediate state; its
lookups agree with `c0` on every key still to be spent or written. -/
theorem foldApply_conserves (verify : String → String → String → Bool) (c0 : Blockchain) :
    ∀ (txs : List Transaction) (c : Blockchain),
      (∀ tx ∈ txs, tx.inputs ≠ [] ∧ (validate_transaction verify c0 tx).1 = true) →
      (txs.flatMap inKeys).Nodup →
      (writeKeys txs).Nodup →
      (∀ k ∈ txs.flatMap inKeys, dictLookup k c.utxo = dictLookup k c0.utxo) →
      (∀ k ∈ writeKeys txs, dictLookup k c0.utxo = none) →
      (∀ k ∈ writeKeys txs, dictLookup k c.utxo = none) →
      ∀ x, assetSum (txs.foldl apply_transaction c).utxo x = assetSum c.utxo x := by
  intro txs
  induction txs with
  | nil => intro c _ _ _ _ _ _ x; rfl
  | cons tx rest ih =>
    intro c hval hnodin hnodw hleq hfr0 hfr x
    rw [List.flatMap_cons, List.nodup_append] at hnodin
    obtain ⟨hndtx, hndrest, hdisj⟩ := hnodin
    have hw_split : writeKeys (tx :: rest) =
        ((List.range tx.outputs.length).map fun j => (tx.txid, j)) ++ writeKeys rest := by
      simp [writeKeys, List.flatMap_cons]
    rw [hw_split, List.nodup_append] at hnodw
    obtain ⟨hwtx, hwrest, hwdisj⟩ := hnodw
    have hmemin : ∀ k ∈ rest.flatMap inKeys, k ∈ (tx :: rest).flatMap inKeys := by
      intro k hk
      rw [List.flatMap_cons, List.mem_append]
      exact Or.inr hk
    have hmemw : ∀ k ∈ writeKeys rest, k ∈ writeKeys (tx :: rest) := by
      intro k hk
      rw [hw_split, List.mem_append]
      exact Or.inr hk
    have hcong : ∀ inp ∈ tx.inputs,
        utxoGet c.utxo inp.txid_ref inp.index = utxoGet c0.utxo inp.txid_ref inp.index := by
      intro inp hinp
      refine hleq _ (List.mem_flatMap.mpr ⟨tx, List.mem_cons_self _ _, ?_⟩)
      exact List.mem_map_of_mem _ hinp
    have hne := (hval tx (List.mem_cons_self _ _)).1
    have hvtx : (validate_transaction verify c tx).1 = true := by
      rw [validate_transaction_congr verify c0 c tx hcong]
      exact (hval tx (List.mem_cons_self _ _)).2
    have hfresh_tx : ∀ j, j < tx.outputs.length → dictLookup (tx.txid, j) c.utxo = none :=
      fun j hj => hfr _ (mem_writeKeys.mpr ⟨tx, List.mem_cons_self _ _, rfl, hj⟩)
    have hstep := apply_transaction_conserves verify c tx hne hvtx hndtx hfresh_tx
    have hpres : ∀ k ∈ rest.flatMap inKeys, ∃ o, dictLookup k c0.utxo = some o := by
      intro k hk
      rcases List.mem_flatMap.mp hk with ⟨tx2, htx2, hk2⟩
      rcases List.mem_map.mp hk2 with ⟨inp, hinp, rfl⟩
      obtain ⟨a, totalIn, hpr, _, _⟩ := validate_true_spec verify c0 tx2
        (hval tx2 (List.mem_cons_of_mem _ htx2)).1 (hval tx2 (List.mem_cons_of_mem _ htx2)).2
      obtain ⟨o, ho, _⟩ := hpr inp hinp
      exact ⟨o, ho⟩
    have hleq1 : ∀ k ∈ rest.flatMap inKeys,
        dictLookup k (apply_transaction c tx).utxo = dictLookup k c0.utxo := by
      intro k hk
      obtain ⟨o, ho⟩ := hpres k hk
      have hkw : ∀ j, j < tx.outputs.length → k ≠ (tx.txid, 0 + j) := by
        intro j hj heq
        rw [Nat.zero_add] at heq
        have hnone : dictLookup k c0.utxo = none :=
          hfr0 _ (heq ▸ mem_writeKeys.mpr ⟨tx, List.mem_cons_self _ _, rfl, hj⟩)
        rw [hnone] at ho
        cases ho
      have hkin : ∀ inp ∈ tx.inputs, (inp.txid_ref, inp.index) ≠ k := by
        intro inp hinp heq
        exact hdisj (heq ▸ List.mem_map_of_mem _ hinp) hk
      rw [apply_transaction_utxo,
        lookup_addOutputsFrom_frame tx.txid tx.outputs 0 _ k hkw,
        removeFold_frame k tx.inputs c.utxo hkin]
      exact hleq k (hmemin k hk)
    have hfr1 : ∀ k ∈ writeKeys rest,
        dictLookup k (apply_transaction c tx).utxo = none := by
      intro k hk
      have hkw : ∀ j, j < tx.outputs.length → k ≠ (tx.txid, 0 + j) := by
        intro j hj heq
        rw [Nat.zero_add] at heq
        refine hwdisj ?_ hk
        rw [heq]
        exact List.mem_map.mpr ⟨j, List.mem_range.mpr hj, rfl⟩
      rw [apply_transaction_utxo,
        lookup_addOutputsFrom_frame tx.txid tx.outputs 0 _ k hkw]
      exact removeFold_none _ _ (hfr k (hmemw k hk))
    rw [List.foldl_cons,
      ih (apply_transaction c tx) (fun t ht => hval t (List.mem_cons_of_mem _ ht))
        hndrest hwrest hleq1 (fun k hk => hfr0 k (hmemw k hk)) hfr1 x]
    exact hstep x

/-- `receive_block` preserves every asset's unspent sum when the block
consists of spending transactions over pairwise-distinct outpoints with
fresh output keys (a rejected block trivially changes nothing). -/
theorem receive_block_conserves (verify : String → String → String → Bool)
    (nd : FullNode) (b : Block)
    (hin : ∀ tx ∈ b.txs, tx.inputs ≠ [])
    (hnodin : (b.txs.flatMap inKeys).Nodup)
    (hnodw : (writeKeys b.txs).Nodup)
    (hfresh : ∀ k ∈ writeKeys b.txs, dictLookup k nd.blockchain.utxo = none) :
    ∀ x, assetSum (receive_block verify nd b).blockchain.utxo x =
      assetSum nd.blockchain.utxo x := by
  intro x
  simp only [receive_block]
  by_cases h1 : nd.blockchain.height_tip_hash ≠ "" ∧
      b.header.prev_hash ≠ nd.blockchain.height_tip_hash
  · rw [if_pos h1]
  · rw [if_neg h1]
    by_cases h2 : hexToNat TARGET_HEX ≤ hexToNat b.header.hash
    · rw [if_pos h2]
    · rw [if_neg h2]
      by_cases h3 : b.txs.all fun tx => (validate_transaction verify nd.blockchain tx).1
      · rw [if_pos h3]
        rw [pairfold_fst]
        exact foldApply_conserves verify nd.blockchain b.txs
          ⟨dictInsert b.header.hash b nd.blockchain.blocks_by_hash, b.header.hash,
            nd.blockchain.utxo⟩
          (fun tx ht => ⟨hin tx ht, List.all_eq_true.mp h3 tx ht⟩)
          hnodin hnodw (fun k _ => rfl) hfresh hfresh x
      · rw [if_neg h3]

/-! ### The genesis block's per-asset totals -/

theorem outsSum_zero_of_not_mem (x : String) :
    ∀ (l : List TxOutput), (¬ x ∈ l.map fun o => o.asset_id) → outsSum l x = 0 := by
  intro l
  induction l with
  | nil => intro _; rfl
  | cons o rest ih =>
    intro hx
    rw [List.map_cons] at hx
    simp only [outsSum, List.map_cons, List.sum_cons]
    have h0 := ih fun hm => hx (List.mem_cons_of_mem _ hm)
    simp only [outsSum] at h0
    rw [if_neg (fun ho => hx (by rw [← ho]; exact List.mem_cons_self _ _)), h0]
    omega

/-- With pairwise-distinct asset ids, one output's asset sums to
exactly that output's portion. -/
theorem outsSum_of_nodup_ids :
    ∀ (l : List TxOutput) (o : TxOutput), ((l.map fun o => o.asset_id).Nodup) → o ∈ l →
      outsSum l o.asset_id = o.portion := by
  intro l
  induction l with
  | nil => intro o _ ho; cases ho
  | cons o2 rest ih =>
    intro o hnd ho
    rw [List.map_cons, List.nodup_cons] at hnd
    simp only [outsSum, List.map_cons, List.sum_cons]
    rcases List.mem_cons.mp ho with rfl | hmem
    · rw [if_pos rfl]
      have h0 := outsSum_zero_of_not_mem o.asset_id rest hnd.1
      simp only [outsSum] at h0
      rw [h0]
      omega
    · have hne : o2.asset_id ≠ o.asset_id := fun he =>
        hnd.1 (he ▸ List.mem_map_of_mem _ hmem)
      rw [if_neg hne]
      have := ih o hnd.2 hmem
      simp only [outsSum] at this
      rw [this]
      omega

theorem outsSum_append (x : String) (l1 l2 : List TxOutput) :
    outsSum (l1 ++ l2) x = outsSum l1 x + outsSum l2 x := by
  simp [outsSum, List.map_append, List.sum_append]

theorem sum_outsSum_flatMap (x : String) :
    ∀ (txs : List Transaction),
      (txs.map fun tx => outsSum tx.outputs x).sum =
        outsSum (txs.flatMap fun tx => tx.outputs) x := by
  intro txs
  induction txs with
  | nil => rfl
  | cons t rest ih =>
    rw [List.map_cons, List.sum_cons, List.flatMap_cons, outsSum_append, ih]

/-- Writing the outputs of a list of transactions with distinct, fresh
keys adds exactly the per-asset block total. -/
theorem assetSum_genesisFold (x : String) :
    ∀ (txs : List Transaction) (u : UTXOSet), (writeKeys txs).Nodup →
      (∀ k ∈ writeKeys txs, dictLookup k u = none) →
      assetSum (txs.foldl (fun u tx => addOutputsFrom tx.txid 0 tx.outputs u) u) x =
        assetSum u x + (txs.map fun tx => outsSum tx.outputs x).sum := by
  intro txs
  induction txs with
  | nil => intro u _ _; simp
  | cons t rest ih =>
    intro u hnd hfresh
    have hw_split : writeKeys (t :: rest) =
        ((List.range t.outputs.length).map fun j => (t.txid, j)) ++ writeKeys rest := by
      simp [writeKeys, List.flatMap_cons]
    rw [hw_split, List.nodup_append] at hnd
    have hstep : assetSum (addOutputsFrom t.txid 0 t.outputs u) x =
        assetSum u x + outsSum t.outputs x := by
      refine assetSum_addOutputsFrom t.txid x t.outputs 0 u fun j hj => ?_
      rw [Nat.zero_add]
      exact hfresh _ (mem_writeKeys.mpr ⟨t, List.mem_cons_self _ _, rfl, hj⟩)
    have hfresh1 : ∀ k ∈ writeKeys rest,
        dictLookup k (addOutputsFrom t.txid 0 t.outputs u) = none := by
      intro k hk
      have hkw : ∀ j, j < t.outputs.length → k ≠ (t.txid, 0 + j) := by
        intro j hj heq
        rw [Nat.zero_add] at heq
        refine hnd.2.2 ?_ hk
        rw [heq]
        exact List.mem_map.mpr ⟨j, List.mem_range.mpr hj, rfl⟩
      rw [lookup_addOutputsFrom_frame t.txid t.outputs 0 u k hkw]
      exact hfresh k (by rw [hw_split]; exact List.mem_append.mpr (Or.inr hk))
    rw [List.foldl_cons, ih _ hnd.2.1 hfresh1, hstep, List.map_cons, List.sum_cons]
    omega

/-- The UTXO set `add_genesis_block` produces. -/
theorem add_genesis_block_utxo (c : Blockchain) (b : Block) :
    (add_genesis_block c b).utxo =
      b.txs.foldl (fun u tx => addOutputsFrom tx.txid 0 tx.outputs u) c.utxo := rfl

/-- Shape of the transactions `create_genesis` builds. -/
theorem create_genesis_shape (n : Nat) (ws : List String) :
    ∀ tx ∈ (create_genesis n ws).txs, tx.inputs = [] ∧
      ∃ i, i < n ∧ tx.outputs = [⟨"asset-" ++ toString i, ws.getD i "", 100⟩] := by
  intro tx htx
  have htxs : (create_genesis n ws).txs = (List.range n).map fun i =>
      Transaction.mk [] [⟨"asset-" ++ toString i, ws.getD i "", 100⟩] := rfl
  rw [htxs] at htx
  rcases List.mem_map.mp htx with ⟨i, hi, rfl⟩
  exact ⟨rfl, i, List.mem_range.mp hi, rfl⟩

/-- C1 (counterexample): asset conservation is violated.  After the
one-asset genesis (asset-0 sums to 100), the node accepts a
proof-of-work-valid block whose single transaction is a *coinbase*
(empty input list): validation admits it without examining the
outputs, and applying it mints 50 more portions of asset-0, bringing
the unspent sum to 150. -/
theorem asset_conservation_violated :
    (∃ tx ∈ (create_genesis 1 ["aa"]).txs, ∃ o ∈ tx.outputs, o.asset_id = "asset-0") ∧
    assetSum (add_genesis_block emptyChain (create_genesis 1 ["aa"])).utxo "asset-0" = 100 ∧
    assetSum (receive_block (fun _ _ _ => false)
        ⟨"F0", add_genesis_block emptyChain (create_genesis 1 ["aa"]), [], [], none⟩
        ⟨⟨1, "a787109d816eacff2549c7ba112ec15f8ef5065bc5903097435bb4339ef8543a",
            "1bcc40a3650610d7ddc5d007b392a3fa1ab2d02810747db3d5ca94045c1b1274", 1812154⟩,
          [Transaction.mk [] [⟨"asset-0", "bb", 50⟩]]⟩).blockchain.utxo "asset-0" = 150 := by
  refine ⟨?_, ?_, ?_⟩
  · decide
  · decide
  · decide

/-- C1 (amended): asset conservation restricted to *spending* blocks.
After `add_genesis_block` of a `create_genesis` block on the empty
chain, each genesis asset sums to 100 (given distinct txids and asset
ids, which hold for the real SHA-256 txids).  Every block applied by
`receive_block` or by a successful `mine_block` preserves each asset's
unspent sum, provided all its transactions spend at least one input,
the spent outpoints are pairwise distinct across the block, and the
created outputs' UTXO keys are distinct and fresh.  Coinbase (no-input)
transactions, which validation admits after genesis, break
conservation — see the counterexample. -/
theorem asset_conservation (verify : String → String → String → Bool) (na : Nat)
    (ws : List String) (nd : FullNode) (b : Block) (c : Blockchain)
    (pending : List Transaction) (fuel : Nat) (c' : Blockchain) (bm : Block) :
    ((writeKeys (create_genesis na ws).txs).Nodup →
      ((((create_genesis na ws).txs.flatMap fun tx => tx.outputs).map
        fun o => o.asset_id).Nodup) →
      ∀ tx ∈ (create_genesis na ws).txs, ∀ o ∈ tx.outputs,
        assetSum (add_genesis_block emptyChain (create_genesis na ws)).utxo
          o.asset_id = 100) ∧
    ((∀ tx ∈ b.txs, tx.inputs ≠ []) → (b.txs.flatMap inKeys).Nodup →
      (writeKeys b.txs).Nodup →
      (∀ k ∈ writeKeys b.txs, dictLookup k nd.blockchain.utxo = none) →
      ∀ x, assetSum (receive_block verify nd b).blockchain.utxo x =
        assetSum nd.blockchain.utxo x) ∧
    (mine_block verify c pending fuel = .mined c' bm →
      (∀ tx ∈ bm.txs, tx.inputs ≠ []) → (bm.txs.flatMap inKeys).Nodup →
      (writeKeys bm.txs).Nodup →
      (∀ k ∈ writeKeys bm.txs, dictLookup k c.utxo = none) →
      ∀ x, assetSum c'.utxo x = assetSum c.utxo x) := by
  refine ⟨?_, ?_, ?_⟩
  · intro hw ha tx htx o ho
    rw [add_genesis_block_utxo, assetSum_genesisFold o.asset_id (create_genesis na ws).txs
      emptyChain.utxo hw (fun k _ => rfl)]
    rw [sum_outsSum_flatMap]
    have hmem : o ∈ (create_genesis na ws).txs.flatMap fun tx => tx.outputs :=
      List.mem_flatMap.mpr ⟨tx, htx, ho⟩
    rw [outsSum_of_nodup_ids _ o ha hmem]
    obtain ⟨_, i, _, hout⟩ := create_genesis_shape na ws tx htx
    rw [hout] at ho
    rcases List.mem_singleton.mp ho with rfl
    rfl
  · exact receive_block_conserves verify nd b
  · intro hm hin hnodin hnodw hfresh x
    unfold mine_block at hm
    by_cases hsel : (selectValid verify c pending []).isEmpty
    · rw [if_pos hsel] at hm
      cases hm
    · rw [if_neg hsel] at hm
      simp only [] at hm
      cases hps : powSearch
          (match c.tip with
            | none => (0, zeros64)
            | some t => (t.header.height + 1, t.header.hash)).1
          (match c.tip with
            | none => (0, zeros64)
            | some t => (t.header.height + 1, t.header.hash)).2
          (merkle_root ((selectValid verify c pending []).map Transaction.txid)) fuel 0 with
      | none =>
        rw [hps] at hm
        cases hm
      | some hh =>
        rw [hps] at hm
        cases hh with
        | mk hdr hsh =>
          cases hm
          exact foldApply_conserves verify c (selectValid verify c pending [])
            ⟨dictInsert hsh (Block.mk hdr (selectValid verify c pending []))
                c.blocks_by_hash, hsh, c.utxo⟩
            (fun tx ht => ⟨hin tx ht, by
              rcases selectValid_valid verify c pending [] tx ht with h0 | h0
              · cases h0
              · exact h0⟩)
            hnodin hnodw (fun k _ => rfl) hfresh hfresh x

/-- Witness for C1: the genesis part at a concrete two-asset genesis
(hypotheses checked by computation), the receive part at a concrete
node and single-input block, and the mining part instantiated at a
concrete call. -/
theorem asset_conservation_witness :
    (assetSum (add_genesis_block emptyChain (create_genesis 2 ["aa", "bb"])).utxo
      "asset-0" = 100) ∧
    (assetSum (receive_block (fun _ _ _ => false)
        ⟨"F0", emptyChain, [], [], none⟩
        ⟨⟨0, zeros64, "", 0⟩,
          [Transaction.mk [⟨"tt", 0, "aa", "bb"⟩] [⟨"asset-0", "cc", 100⟩]]⟩).blockchain.utxo
      "asset-0" = assetSum emptyChain.utxo "asset-0") := by
  constructor
  · have h := (asset_conservation (fun _ _ _ => false) 2 ["aa", "bb"]
      ⟨"F0", emptyChain, [], [], none⟩ ⟨⟨0, zeros64, "", 0⟩, []⟩ emptyChain [] 0 emptyChain
      ⟨⟨0, zeros64, "", 0⟩, []⟩).1 (by decide) (by decide)
      (Transaction.mk [] [⟨"asset-0", "aa", 100⟩]) (by decide)
      ⟨"asset-0", "aa", 100⟩ (by decide)
    exact h
  · exact (asset_conservation (fun _ _ _ => false) 2 ["aa", "bb"]
      ⟨"F0", emptyChain, [], [], none⟩
      ⟨⟨0, zeros64, "", 0⟩,
        [Transaction.mk [⟨"tt", 0, "aa", "bb"⟩] [⟨"asset-0", "cc", 100⟩]]⟩
      emptyChain [] 0 emptyChain ⟨⟨0, zeros64, "", 0⟩, []⟩).2.1
      (by decide) (by decide) (by decide) (by decide) "asset-0"

end DaChain
